import Mathlib

/-!
Shallow embedding of the transaction-admission and block-assembly engine of
the tee-builder repository: the block builder's commit flow
(`src/common/block_builder/src/block_builder.rs`), its payload arithmetic and
tips strategy (`src/common/block_builder/src/types.rs`), the sequence pool
(`src/common/txpool/src/seq_pool.rs`), the price pool
(`src/common/txpool/src/price_pool.rs`) and the simulator's backpressure
logic (`src/common/block_builder/src/simulator.rs`).

Hashes, addresses and 256-bit quantities are modelled as `Nat`; the `u64`
arithmetic of `calc_gas_limit` wraps explicitly modulo `2 ^ 64` where the
source can over- or underflow.  `BTreeMap` containers are modelled as
key-unique association lists (`alGet`/`alSet`/`alRemove` give the map
semantics); iteration order of a map is the list order.  The external
execution layer (`Executor::apply` of the evm_executor crate together with
the statedb trie) is abstracted as a deterministic oracle from the abstract
state and the transaction to a new state plus a receipt or an
`ExecuteError`; the state handle itself is an opaque `Nat` whose
`state_root`/`revert`/`flush` contract (point-in-time revert, `flush`
returning the root) follows section 6 of the specification.  `prefetch` is
cache warming with no observable effect on the modelled fields and is
omitted.
-/

namespace TeeBuilder

abbrev Hash := Nat
abbrev Addr := Nat

/-! Association-list maps (model of `BTreeMap`). -/

/-- Lookup in an association-list map. -/
def alGet {κ α : Type} [DecidableEq κ] (m : List (κ × α)) (k : κ) : Option α :=
  match m with
  | [] => none
  | (k0, v0) :: rest => if k0 = k then some v0 else alGet rest k

/-- Insert-or-overwrite in an association-list map (`BTreeMap::insert`). -/
def alSet {κ α : Type} [DecidableEq κ] (m : List (κ × α)) (k : κ) (v : α) : List (κ × α) :=
  match m with
  | [] => [(k, v)]
  | (k0, v0) :: rest => if k0 = k then (k, v) :: rest else (k0, v0) :: alSet rest k v

/-- Remove a key from an association-list map (`BTreeMap::remove`). -/
def alRemove {κ α : Type} [DecidableEq κ] (m : List (κ × α)) (k : κ) : List (κ × α) :=
  match m with
  | [] => []
  | (k0, v0) :: rest => if k0 = k then alRemove rest k else (k0, v0) :: alRemove rest k

/-! Transactions and receipts (eth_types data carried by the pools). -/

/-- A pool transaction: hash, recovered sender, nonce, declared gas limit,
the two fee caps, and the bundle `allow_revert` flag
(`eth_types::PoolTx` plus the fields of its inner transaction that the
embedded code reads). -/
structure PoolTx where
  hash : Hash
  caller : Addr
  nonce : Nat
  gasLimit : Nat
  maxFeePerGas : Nat
  maxPriorityFeePerGas : Nat
  allowRevert : Bool
deriving Repr, DecidableEq

/-- Modelled from the spec: `effective_gas_tip` of `eth_types::TransactionInner`
(the eth_types crate is not part of this repository).  Glossary: "the portion
of a transaction's gas price paid to the block producer after subtracting the
base fee, capped by the transaction's priority-fee cap"; it is undefined when
the fee cap does not cover the base fee, and without a base fee it is the
priority-fee cap itself. -/
def PoolTx.effectiveGasTip (tx : PoolTx) (baseFee : Option Nat) : Option Nat :=
  match baseFee with
  | none => some tx.maxPriorityFeePerGas
  | some bf =>
      if tx.maxFeePerGas < bf then none
      else some (min tx.maxPriorityFeePerGas (tx.maxFeePerGas - bf))

/-- An execution receipt: gas consumed and the success status
(`eth_types::Receipt`, with `succ` testing `status == 1`). -/
structure Receipt where
  gasUsed : Nat
  success : Bool
deriving Repr, DecidableEq

/-- Receipt success test (`Receipt::succ`). -/
def Receipt.succ (r : Receipt) : Bool := r.success

/-- The execution-error taxonomy of `evm_executor::ExecuteError`; the
state-layer fault carries an opaque error code. -/
inductive ExecuteError : Type where
  | NotSupported
  | InsufficientFunds
  | InsufficientBaseFee
  | ExecutePaymentTxFail
  | NonceTooLow
  | NonceTooHigh
  | StateError (code : Nat)
deriving Repr, DecidableEq

/-- Outcome of one `Executor::apply` call: the mutated state (the executor
writes into the state even when it fails part-way) and either a receipt or an
`ExecuteError`. -/
structure ExecOutcome where
  newState : Nat
  result : Except ExecuteError Receipt

/-- The external execution layer abstracted as a deterministic oracle on the
abstract state. -/
abbrev ExecOracle := Nat → PoolTx → ExecOutcome

/-! Environment of one build round (`block_builder::types::Environment`). -/

/-- The per-round environment: abstract working state (its root), the
in-progress header's base fee and gas used, committed transactions and
receipts, the remaining gas pool and the de-duplicating checked-txs map. -/
structure Environment where
  state : Nat
  headerBaseFee : Nat
  headerGasUsed : Nat
  txs : List PoolTx
  receipts : List Receipt
  gasPool : Nat
  checkedTxs : List (Hash × Bool)
deriving Repr, DecidableEq

/-- Deduct used gas from the pool and add it to the header
(`Environment::use_gas`). -/
def Environment.useGas (env : Environment) (gas : Nat) : Environment :=
  { env with gasPool := env.gasPool - gas, headerGasUsed := env.headerGasUsed + gas }

/-- Return gas to the pool and subtract it from the header
(`Environment::refund_gas`). -/
def Environment.refundGas (env : Environment) (gas : Nat) : Environment :=
  { env with gasPool := env.gasPool + gas, headerGasUsed := env.headerGasUsed - gas }

/-- The per-transaction commit outcome (`block_builder::types::CommitAction`). -/
inductive CommitAction : Type where
  | Success (receipt : Receipt)
  | Shift
  | Pop (reason : String)
  | MarkFail (reason : String)
  | Stop (reason : String)
  | RemoveTx
deriving Repr, DecidableEq

/-- Single-transaction commit (`BlockBuilder::commit_transaction`): records
the hash in `checked_txs`, checks the gas pool against the fixed 21000
overhead and the declared gas limit, checks liveness, validates the effective
gas tip against the header base fee, runs the execution oracle and classifies
its failures; on success appends the transaction and receipt and deducts the
used gas.  A state-layer fault is the only fatal (`Except.error`) outcome. -/
def commitTransaction (exec : ExecOracle) (alive : Bool) (env : Environment)
    (poolTx : PoolTx) : Except Nat (Environment × CommitAction) :=
  let env := { env with checkedTxs := alSet env.checkedTxs poolTx.hash false }
  if env.gasPool ≤ 21000 then
    .ok (env, .Stop "Not enough gas for further transactions")
  else if env.gasPool < poolTx.gasLimit then
    .ok (env, .Pop "gas pool out of limited")
  else if ¬ alive then
    .ok (env, .Stop "not alive, maybe timeout")
  else
    match poolTx.effectiveGasTip (some env.headerBaseFee) with
    | none => .ok (env, .MarkFail "invalid base fee")
    | some _ =>
      let out := exec env.state poolTx
      let env := { env with state := out.newState }
      match out.result with
      | .ok receipt =>
          let env := env.useGas receipt.gasUsed
          let env := { env with
            txs := env.txs ++ [poolTx],
            receipts := env.receipts ++ [receipt],
            checkedTxs := alSet env.checkedTxs poolTx.hash true }
          .ok (env, .Success receipt)
      | .error e =>
          match e with
          | .NonceTooLow =>
              .ok ({ env with checkedTxs := alSet env.checkedTxs poolTx.hash true }, .RemoveTx)
          | .NotSupported =>
              .ok ({ env with checkedTxs := alSet env.checkedTxs poolTx.hash true }, .RemoveTx)
          | .StateError code => .error code
          | .NonceTooHigh => .ok (env, .MarkFail "NonceTooHigh")
          | .ExecutePaymentTxFail => .ok (env, .MarkFail "ExecutePaymentTxFail")
          | .InsufficientBaseFee => .ok (env, .MarkFail "InsufficientBaseFee")
          | .InsufficientFunds => .ok (env, .MarkFail "InsufficientFunds")

/-- One pop step loop of `BlockBuilder::revert_txs_to`, with explicit fuel
(the Rust `while` pops at most `txs.len()` times). -/
def revertTxsToGo : Nat → Environment → Nat → Environment
  | 0, env, _ => env
  | fuel + 1, env, tcount =>
    if env.txs.length ≤ tcount then env
    else
      match env.txs.getLast?, env.receipts.getLast? with
      | some tx, some receipt =>
          revertTxsToGo fuel
            (Environment.refundGas
              { env with
                txs := env.txs.dropLast,
                receipts := env.receipts.dropLast,
                checkedTxs := alRemove env.checkedTxs tx.hash } receipt.gasUsed) tcount
      | _, _ => env

/-- Truncate the committed transaction and receipt lists back to length
`tcount`, refunding each popped receipt's gas and clearing the checked-txs
entries (`BlockBuilder::revert_txs_to`). -/
def revertTxsTo (env : Environment) (tcount : Nat) : Environment :=
  revertTxsToGo env.txs.length env tcount

/-! Bundles and the bundle fill phase. -/

/-- An atomic transaction group as the builder sees it (only the fields
`fill_bundles` reads: the ordered transactions and the bundle hash). -/
structure Bundle where
  txs : List PoolTx
  hash : Hash
deriving Repr, DecidableEq

/-- Recorded outcome of one bundle; the Rust encodes these as the strings
"submitted" and "reverted in tx: {hash}". -/
inductive BundleStatus : Type where
  | submitted
  | revertedInTx (txHash : Hash)
deriving Repr, DecidableEq

/-- One `BundleResult` entry (`block_builder::types::BundleResult`). -/
structure BundleResult where
  bundleHash : Hash
  status : BundleStatus
deriving Repr, DecidableEq

/-- Result of committing the transactions of one bundle in order: every
transaction succeeded (or was allowed to revert), or the first failure with
its transaction hash and whether it was a `Stop`, or a fatal state error. -/
inductive BundleLoopOut : Type where
  | allOk (env : Environment)
  | failed (env : Environment) (txHash : Hash) (stop : Bool)
  | fatal (code : Nat)

/-- The inner transaction loop of `BlockBuilder::fill_bundles`: commit each
bundle transaction in submission order; a `Success` whose receipt reverted
while `allow_revert` is false, or any non-`Success` action, ends the loop as
a failure (a `Stop` is flagged); a state error is fatal. -/
def commitBundleTxs (exec : ExecOracle) (alive : Bool) (env : Environment) :
    List PoolTx → BundleLoopOut
  | [] => .allOk env
  | tx :: rest =>
    match commitTransaction exec alive env tx with
    | .error code => .fatal code
    | .ok (env1, act) =>
      match act with
      | .Success receipt =>
          let env2 := { env1 with checkedTxs := alSet env1.checkedTxs tx.hash true }
          if tx.allowRevert || receipt.succ then commitBundleTxs exec alive env2 rest
          else .failed env2 tx.hash false
      | .Stop _ => .failed env1 tx.hash true
      | .Pop _ => .failed env1 tx.hash false
      | .MarkFail _ => .failed env1 tx.hash false
      | .Shift => .failed env1 tx.hash false
      | .RemoveTx => .failed env1 tx.hash false

/-- The bundle fill phase (`BlockBuilder::fill_bundles`) over an already
listed set of currently valid bundles: per bundle, snapshot the state root
and the committed-transaction count, run the inner loop; on failure revert
the state to the snapshot, truncate transactions and receipts back, record
"reverted in tx", and on a `Stop` abort all remaining bundles; on success
flush (the flushed root is the state itself in this model) and record
"submitted". -/
def fillBundles (exec : ExecOracle) (alive : Bool) (env : Environment) :
    List Bundle → Except Nat (Environment × List BundleResult)
  | [] => .ok (env, [])
  | b :: rest =>
    if ¬ alive then .ok (env, [])
    else
      let snapshot := env.state
      let startTCount := env.txs.length
      match commitBundleTxs exec alive env b.txs with
      | .fatal code => .error code
      | .allOk env1 =>
          match fillBundles exec alive env1 rest with
          | .error code => .error code
          | .ok (env2, results) =>
              .ok (env2, ⟨b.hash, .submitted⟩ :: results)
      | .failed env1 txh stop =>
          let env2 := revertTxsTo { env1 with state := snapshot } startTCount
          if stop then .ok (env2, [⟨b.hash, .revertedInTx txh⟩])
          else
            match fillBundles exec alive env2 rest with
            | .error code => .error code
            | .ok (env3, results) =>
                .ok (env3, ⟨b.hash, .revertedInTx txh⟩ :: results)

/-! Payload arithmetic (`block_builder::types::BuildPayload`). -/

/-- EIP-1559 base-fee retargeting (`BuildPayload::calc_base_fee`): unchanged
at the 50 percent gas target, increased by at least one above it, decreased
by the computed step below it. -/
def calc_base_fee (gasLimit gasUsed baseFee : Nat) : Nat :=
  let parentGasTarget := gasLimit / 2
  if gasUsed = parentGasTarget then baseFee
  else if parentGasTarget < gasUsed then
    let num := gasUsed - parentGasTarget
    let num := num * baseFee
    let num := num / parentGasTarget
    let num := num / 8
    let baseFeeDelta := max num 1
    baseFeeDelta + baseFee
  else
    let num := parentGasTarget - gasUsed
    let num := num * baseFee
    let num := num / parentGasTarget
    let num := num / 8
    baseFee - num

/-- Gas-limit retargeting toward a desired limit
(`BuildPayload::calc_gas_limit`); the `u64` expressions
`parent_gas_limit / 1024 - 1`, `parent_gas_limit + delta` and
`parent_gas_limit - delta` wrap modulo `2 ^ 64` exactly where the Rust
subtraction or addition can wrap. -/
def calc_gas_limit (parentGasLimit desiredLimit : Nat) : Nat :=
  let delta := (parentGasLimit / 1024 + (2 ^ 64 - 1)) % 2 ^ 64
  let desired := if desiredLimit < 5000 then 5000 else desiredLimit
  if parentGasLimit < desired then
    let limit := (parentGasLimit + delta) % 2 ^ 64
    if desired < limit then desired else limit
  else if desired < parentGasLimit then
    let limit := (parentGasLimit + (2 ^ 64 - delta)) % 2 ^ 64
    if limit < desired then desired else limit
  else parentGasLimit

/-! Tips strategy (`block_builder::types::TipsStrategy`). -/

/-- One reward rule: start value and capped increments
(`block_builder::types::TipsStrategyRule`). -/
structure TipsStrategyRule where
  start : Nat
  num_increment : Nat
  max_num_increment : Nat
  blocks_increment : Nat
  max_blocks_increment : Nat
deriving Repr, DecidableEq

/-- The declarative reward schedule (`block_builder::types::TipsStrategy`). -/
structure TipsStrategy where
  max : Nat
  bundle : Option TipsStrategyRule
  internal : Option TipsStrategyRule
  normal : Option TipsStrategyRule
deriving Repr, DecidableEq

/-- Final tip computation (`TipsStrategy::get`): the bundle bonus applies
when at least one bundle landed, the internal bonus scales with the count and
the worst miss-count (each increment capped), the normal bonus is flat; the
reward is increased by the largest bonus, that bonus being capped at the
configured maximum. -/
def TipsStrategy.get (s : TipsStrategy) (reward : Nat) (internals : List Nat)
    (bundles : Nat) : Nat :=
  let bundle :=
    match s.bundle with
    | some rule => if 0 < bundles then rule.start else 0
    | none => 0
  let internal :=
    match s.internal with
    | some strategy =>
        (match internals.max? with
         | some maxBlkMiss =>
             strategy.start
               + Nat.min (internals.length * strategy.num_increment) strategy.max_num_increment
               + Nat.min (maxBlkMiss * strategy.blocks_increment) strategy.max_blocks_increment
         | none => 0)
    | none => 0
  let normal :=
    match s.normal with
    | some strategy => strategy.start
    | none => 0
  reward + Nat.min (Nat.max (Nat.max internal bundle) normal) s.max

/-- The tip formula as the amended claim words it: the reward plus the
maximum of the applicable bonuses, where the cap at the configured maximum
applies to that bonus (not to the reward-plus-bonus sum). -/
def tipsAmendedSpec (s : TipsStrategy) (reward : Nat) (internals : List Nat)
    (bundles : Nat) : Nat :=
  let bundleBonus :=
    if 0 < bundles then (s.bundle.map TipsStrategyRule.start).getD 0 else 0
  let internalBonus :=
    match s.internal, internals.max? with
    | some rule, some worstMiss =>
        rule.start
          + Nat.min (internals.length * rule.num_increment) rule.max_num_increment
          + Nat.min (worstMiss * rule.blocks_increment) rule.max_blocks_increment
    | _, _ => 0
  let normalBonus := (s.normal.map TipsStrategyRule.start).getD 0
  reward + Nat.min s.max (Nat.max bundleBonus (Nat.max internalBonus normalBonus))

/-! Sequence pool (`txpool::seq_pool`). -/

/-- A stored sequence-pool entry: the transaction and its sequence number
(`seq_pool::TxInfo`; the failure-reason and submit bookkeeping fields play no
role in the embedded operations). -/
structure TxInfo where
  tx : PoolTx
  seq : Nat
deriving Repr, DecidableEq

/-- The sequence pool's inner container (`seq_pool::SeqPoolList`): the
seq-to-hash order map, the hash-to-entry map, the per-account sorted
`(nonce, hash)` vectors and the strictly increasing sequence counter. -/
structure SeqPoolList where
  order : List (Nat × Hash)
  txs : List (Hash × TxInfo)
  accounts : List (Addr × List (Nat × Hash))
  seq : Nat
deriving Repr, DecidableEq

/-- Result of scanning one account's `(nonce, hash)` vector during
`SeqPoolList::push`: the exact duplicate was found (early return), or the
first entry with a nonce at or above the new one was found at `idx` (after
evicting an equal-nonce entry from the maps), or the scan ran off the end. -/
inductive ScanOut : Type where
  | earlyReturn
  | breakAt (idx : Nat) (txs : List (Hash × TxInfo)) (order : List (Nat × Hash))
  | ranOff (txs : List (Hash × TxInfo)) (order : List (Nat × Hash))

/-- The scan loop at the head of `SeqPoolList::push`: walk the account's
entries; an entry with the same nonce and hash returns early; an entry with
the same nonce but another hash is evicted from the tx and order maps; the
loop breaks at the first entry whose nonce is at least the new nonce. -/
def scanAccount (nonce : Nat) (hash : Hash) :
    List (Hash × TxInfo) → List (Nat × Hash) → List (Nat × Hash) → Nat → ScanOut
  | txs, order, [], _ => .ranOff txs order
  | txs, order, (n, h) :: rest, idx =>
    if nonce = n ∧ hash = h then .earlyReturn
    else if nonce = n then
      match alGet txs h with
      | some info =>
          if nonce ≤ n then .breakAt idx (alRemove txs h) (alRemove order info.seq)
          else scanAccount nonce hash (alRemove txs h) (alRemove order info.seq) rest (idx + 1)
      | none =>
          if nonce ≤ n then .breakAt idx (alRemove txs h) order
          else scanAccount nonce hash (alRemove txs h) order rest (idx + 1)
    else
      if nonce ≤ n then .breakAt idx txs order
      else scanAccount nonce hash txs order rest (idx + 1)

/-- The re-sequencing loop of `SeqPoolList::push`: every drained entry still
present in the tx map is assigned the next fresh sequence number, moved in
the order map, and appended back to the account vector; entries no longer in
the tx map (the just-evicted duplicate) are dropped. -/
def resequence : List (Hash × TxInfo) → List (Nat × Hash) → Nat →
    List (Nat × Hash) → List (Nat × Hash) →
    List (Hash × TxInfo) × List (Nat × Hash) × Nat × List (Nat × Hash)
  | txs, order, seqCtr, account, [] => (txs, order, seqCtr, account)
  | txs, order, seqCtr, account, (n, h) :: rest =>
    match alGet txs h with
    | some info =>
        let order1 := alRemove order info.seq
        let txs1 := alSet txs h { info with seq := seqCtr }
        let order2 := alSet order1 seqCtr h
        resequence txs1 order2 (seqCtr + 1) (account ++ [(n, h)]) rest
    | none => resequence txs order seqCtr account rest

/-- Admission into the sequence pool (`SeqPoolList::push`): scan the
account's vector; on a duplicate nonce the old entry is evicted and every
entry from that position on is re-sequenced to the tail, preserving its
position in the account vector; the new transaction itself receives the
current sequence number. -/
def SeqPoolList.push (l : SeqPoolList) (tx : PoolTx) : SeqPoolList × Hash :=
  let hash := tx.hash
  let accounts :=
    if (alGet l.accounts tx.caller).isSome then l.accounts
    else alSet l.accounts tx.caller []
  let account := (alGet accounts tx.caller).getD []
  match scanAccount tx.nonce hash l.txs l.order account 0 with
  | .earlyReturn => (l, hash)
  | .breakAt idx txs1 order1 =>
      let seq0 := l.seq
      let order2 := alSet order1 seq0 hash
      let kept := account.take idx
      let drained := account.drop idx
      let st := resequence txs1 order2 (seq0 + 1) (kept ++ [(tx.nonce, hash)]) drained
      let txsF := alSet st.1 hash ⟨tx, seq0⟩
      ({ order := st.2.1, txs := txsF,
         accounts := alSet accounts tx.caller st.2.2.2, seq := st.2.2.1 }, hash)
  | .ranOff txs1 order1 =>
      let seq0 := l.seq
      let order2 := alSet order1 seq0 hash
      let txsF := alSet txs1 hash ⟨tx, seq0⟩
      ({ order := order2, txs := txsF,
         accounts := alSet accounts tx.caller (account ++ [(tx.nonce, hash)]),
         seq := seq0 + 1 }, hash)

/-! Price pool (`txpool::price_pool`). -/

/-- The per-sender nonce-sorted container is a `BTreeMap` from nonce to
transaction (`price_pool::SortedMap`); a `UserTxList` wraps exactly one of
these, so both are modelled as the item list itself. -/
abbrev SortedMapRep := List (Nat × PoolTx)

/-- The validation filter threaded through `PricePool::list`
(hash to already-checked verdict). -/
abbrev Filter := List (Hash × Bool)

/-- The flatten loop of `price_pool::SortedMap::flatten`, with the running
`not_check` flag, accumulated output, filter and dropped counter made
explicit: an already-validated hash is skipped, an already-dropped hash stops
the scan, an undefined effective gas tip marks the transaction dropped and
stops, and a non-consecutive nonce stops. -/
def flattenGo (baseFee : Option Nat) :
    SortedMapRep → Bool → List PoolTx → Filter → Nat →
    List PoolTx × Filter × Nat
  | [], _, acc, filter, dropped => (acc, filter, dropped)
  | (nonce, txInfo) :: rest, notCheck, acc, filter, dropped =>
    match (if notCheck then none else alGet filter txInfo.hash) with
    | some true => flattenGo baseFee rest notCheck acc filter dropped
    | some false => (acc, filter, dropped)
    | none =>
      match txInfo.effectiveGasTip baseFee with
      | none => (acc, alSet filter txInfo.hash false, dropped + 1)
      | some _ =>
        match acc.getLast? with
        | some lastTx =>
            if nonce ≤ lastTx.nonce ∨ nonce - lastTx.nonce ≠ 1 then (acc, filter, dropped)
            else flattenGo baseFee rest true (acc ++ [txInfo]) filter dropped
        | none => flattenGo baseFee rest true (acc ++ [txInfo]) filter dropped

/-- Per-account flattening (`SortedMap::flatten`). -/
def flatten (items : SortedMapRep) (filter : Filter) (baseFee : Option Nat) :
    List PoolTx × Filter × Nat :=
  flattenGo baseFee items false [] filter 0

/-- The reverse scan of `SortedMap::clean_underprice` collecting up to
`budget` nonces whose effective gas tip is undefined (the input list is the
reversed item list). -/
def cleanCollect (baseFee : Option Nat) : SortedMapRep → Nat → List Nat
  | [], _ => []
  | (nonce, txInfo) :: rest, budget =>
    if budget = 0 then []
    else if (txInfo.effectiveGasTip baseFee).isNone then
      nonce :: cleanCollect baseFee rest (budget - 1)
    else cleanCollect baseFee rest budget

/-- Evict up to `budget` underpriced tail entries
(`SortedMap::clean_underprice`), returning the shrunk item list and the
hashes of the removed transactions. -/
def clean_underprice (items : SortedMapRep) (baseFee : Option Nat)
    (budget : Nat) : SortedMapRep × List Hash :=
  let removedNonces := cleanCollect baseFee items.reverse budget
  removedNonces.foldl
    (fun st n =>
      match alGet st.1 n with
      | some txInfo => (alRemove st.1 n, st.2 ++ [txInfo.hash])
      | none => (st.1, st.2))
    (items, [])

/-- The price pool (`price_pool::PricePool`): per-sender pending lists, the
hash cache of every admitted transaction, and the soft size limit. -/
structure PricePoolS where
  pending : List (Addr × SortedMapRep)
  caches : List (Hash × PoolTx)
  limitedSize : Nat
deriving Repr, DecidableEq

/-- Hash-membership test (`PricePool::contains`). -/
def PricePoolS.contains (p : PricePoolS) (hash : Hash) : Bool :=
  (alGet p.caches hash).isSome

/-- Pool size (`PricePool::len`) counts the hash cache. -/
def PricePoolS.size (p : PricePoolS) : Nat := p.caches.length

/-- The account iteration of `PricePool::list`: accumulate each account's
flattened run when non-empty (stopping once `limit` accounts are collected),
and after a drop, while the pool is over its soft limit, evict underpriced
tail entries from the account's list (removing the account when it empties)
and drop their hashes from the cache. -/
def listGo (limitedSize : Nat) (baseFee : Option Nat) (limit : Nat) :
    List (Addr × SortedMapRep) → Filter → List (Hash × PoolTx) → Nat →
    List (Addr × SortedMapRep) → List (Addr × List PoolTx) →
    List (Addr × List PoolTx) × Filter × List (Hash × PoolTx) × List (Addr × SortedMapRep)
  | [], filter, caches, _, accPending, accResult =>
      (accResult, filter, caches, accPending)
  | (addr, items) :: rest, filter, caches, totalLen, accPending, accResult =>
    let totalLen := totalLen + items.length
    let flat := flatten items filter baseFee
    let txs := flat.1
    let filter1 := flat.2.1
    let droppedCnt := flat.2.2
    if txs.length ≠ 0 ∧ limit ≤ accResult.length + 1 then
      (accResult ++ [(addr, txs)], filter1, caches, accPending ++ (addr, items) :: rest)
    else
      let accResult1 := if txs.length ≠ 0 then accResult ++ [(addr, txs)] else accResult
      if droppedCnt ≠ 0 ∧ limitedSize < totalLen then
        let cleaned := clean_underprice items baseFee (totalLen - limitedSize)
        let items1 := cleaned.1
        let removed := cleaned.2
        let caches1 := removed.foldl (fun c h => alRemove c h) caches
        let accPending1 :=
          if items1.length = 0 then accPending else accPending ++ [(addr, items1)]
        listGo limitedSize baseFee limit rest filter1 caches1
          (totalLen - removed.length) accPending1 accResult1
      else
        listGo limitedSize baseFee limit rest filter1 caches totalLen
          (accPending ++ [(addr, items)]) accResult1

/-- Drain a page of per-account runs from the price pool
(`PricePool::list`): the per-account flattened runs, the updated filter, the
updated hash cache and the updated pending lists. -/
def PricePoolS.list (p : PricePoolS) (filter : Filter) (baseFee : Option Nat)
    (limit : Nat) :
    List (Addr × List PoolTx) × Filter × List (Hash × PoolTx) × List (Addr × SortedMapRep) :=
  listGo p.limitedSize baseFee limit p.pending filter p.caches 0 [] []

/-- Nonce-keyed insertion with per-user overflow eviction
(`SortedMap::put`): insert at the transaction's nonce; when the list exceeds
`TXPOOL_USER_MAX_SIZE` (20), the highest-nonce entry is popped. -/
def SortedMap.put (items : SortedMapRep) (tx : PoolTx) : SortedMapRep :=
  let items1 := alSet items tx.nonce tx
  if 20 < items1.length then
    match (items1.map Prod.fst).max? with
    | some worst => alRemove items1 worst
    | none => items1
  else items1

/-- Per-sender admission (`UserTxList::add`): a transaction whose nonce is
already present replaces the old entry only when both fee caps strictly
increase (and, with a positive price bump, clear the bumped thresholds);
otherwise the list is unchanged and `false` is returned. -/
def UserTxList.add (items : SortedMapRep) (tx : PoolTx) (priceBump : Nat) :
    SortedMapRep × Bool :=
  match alGet items tx.nonce with
  | some old =>
    if tx.maxFeePerGas ≤ old.maxFeePerGas ∨
        tx.maxPriorityFeePerGas ≤ old.maxPriorityFeePerGas then (items, false)
    else if 0 < priceBump ∧
        (tx.maxFeePerGas < (100 + priceBump) * old.maxFeePerGas / 100 ∨
         tx.maxPriorityFeePerGas < (100 + priceBump) * old.maxPriorityFeePerGas / 100) then
      (items, false)
    else (SortedMap.put items tx, true)
  | none => (SortedMap.put items tx, true)

/-- The pool-level error taxonomy (`txpool::Error`), as far as admission
uses it. -/
inductive PoolError : Type where
  | AlreadyKnowned
deriving Repr, DecidableEq

/-- Price-pool admission (`PricePool::push`): reject a known hash, otherwise
record the hash in the cache, then offer the transaction to the sender's
list with a zero price bump — the boolean verdict of `UserTxList::add` is
discarded and the hash is returned as success either way. -/
def PricePoolS.push (p : PricePoolS) (tx : PoolTx) : Except PoolError (PricePoolS × Hash) :=
  let hash := tx.hash
  let caller := tx.caller
  match alGet p.caches hash with
  | some _ => .error .AlreadyKnowned
  | none =>
    let caches := alSet p.caches hash tx
    let pending :=
      match alGet p.pending caller with
      | some items => alSet p.pending caller (UserTxList.add items tx 0).1
      | none => alSet p.pending caller (UserTxList.add [] tx 0).1
    .ok ({ p with caches := caches, pending := pending }, hash)

/-! Simulator backpressure (`block_builder::simulator`). -/

/-- The simulation error taxonomy (`simulator::SimulateError`). -/
inductive SimulateError : Type where
  | QueueStalled
  | Execute
  | State
  | UnexpectedExited
  | UnknownError
deriving Repr, DecidableEq

/-- A tagged simulation result delivered on the channel
(`simulator::SimulateResult`). -/
structure SimulateResult where
  tag : Nat
  txHash : Hash
  err : Option SimulateError
deriving Repr, DecidableEq

/-- What one `Simulator::simulate_async` call does to the worker pool: either
a result is sent on the channel immediately (before returning, enqueueing
nothing), or a task is enqueued for the pool. -/
inductive AsyncEffect : Type where
  | sentImmediately (r : SimulateResult)
  | enqueuedTask
deriving Repr, DecidableEq

/-- The submission decision of `Simulator::simulate_async`: when the worker
pool's queued count has reached its capacity and `force` is false, a
`QueueStalled` result is sent at once and no task is enqueued; otherwise the
task goes onto the pool. -/
def simulateAsync (queuedCount maxCount : Nat) (force : Bool) (tag : Nat)
    (tx : PoolTx) : AsyncEffect :=
  if maxCount ≤ queuedCount ∧ ¬ force then
    .sentImmediately ⟨tag, tx.hash, some .QueueStalled⟩
  else .enqueuedTask

/-- The receive loop of the batch `Simulator::simulate` over the sequence of
results delivered on the channel: the first erroneous result is returned as
the batch error; otherwise each result fills its tagged slot. -/
def simulateRecvLoop (slots : List (Option Hash)) :
    List SimulateResult → Except SimulateError (List (Option Hash))
  | [] => .ok slots
  | r :: rest =>
    match r.err with
    | some e => .error e
    | none => simulateRecvLoop (slots.set r.tag (some r.txHash)) rest

/-! Concrete instances used by the witness theorems. -/

/-- A concrete execution oracle that succeeds, consuming the declared gas
limit. -/
def execAllOk : ExecOracle :=
  fun state tx => ⟨state + 1, .ok ⟨tx.gasLimit, true⟩⟩

/-- A concrete execution oracle that reverts the second transaction it is
fed (state parity distinguishes the calls) while still consuming gas. -/
def execSecondReverts : ExecOracle :=
  fun state tx => ⟨state + 1, .ok ⟨tx.gasLimit, state % 2 = 1⟩⟩

/-- A tiny transaction for witnesses. -/
def wtx (h : Hash) (n : Nat) : PoolTx :=
  ⟨h, 7, n, 30000, 50, 2, false⟩

/-- A starting environment for witnesses. -/
def wenv : Environment :=
  ⟨1, 10, 0, [], [], 200000, []⟩

/-- A tips strategy whose only bonus (the flat normal bonus) exceeds the
configured maximum, exposing that the cap applies to the bonus and not to
the final sum. -/
def wstrategy : TipsStrategy :=
  ⟨1, none, none, some ⟨2, 0, 0, 0, 0⟩⟩

/-- A concrete execution oracle that reports a state-layer fault with
code 5. -/
def execStateErr : ExecOracle :=
  fun state _ => ⟨state, .error (.StateError 5)⟩

/-- The environment produced by committing `wtx 1 0` on `wenv` with the
always-succeeding oracle. -/
def wcommitEnv : Environment :=
  ⟨2, 10, 30000, [wtx 1 0], [⟨30000, true⟩], 170000, [(1, true)]⟩

/-- A three-transaction bundle whose second transaction reverts under
`execSecondReverts` started from `wenv`. -/
def wbundle : Bundle :=
  ⟨[wtx 1 0, wtx 2 1, wtx 3 2], 99⟩

/-- The environment reached by `commitBundleTxs` on `wbundle` from `wenv`
with `execSecondReverts` at the moment the second transaction's reverted
receipt is observed. -/
def wbundleFailEnv : Environment :=
  ⟨3, 10, 60000, [wtx 1 0, wtx 2 1], [⟨30000, true⟩, ⟨30000, false⟩], 140000,
    [(1, true), (2, true)]⟩

/-- A sequence pool holding three transactions of one account with nonces
0, 1, 2 under hashes 100, 101, 102 and sequence numbers 0, 1, 2. -/
def wseqpool : SeqPoolList :=
  { order := [(0, 100), (1, 101), (2, 102)],
    txs := [(100, ⟨wtx 100 0, 0⟩), (101, ⟨wtx 101 1, 1⟩), (102, ⟨wtx 102 2, 2⟩)],
    accounts := [(7, [(0, 100), (1, 101), (2, 102)])],
    seq := 3 }

/-- A price pool with one sender holding nonces 0 and 1. -/
def wpricepool : PricePoolS :=
  { pending := [(7, [(0, wtx 201 0), (1, wtx 202 1)])],
    caches := [(201, wtx 201 0), (202, wtx 202 1)],
    limitedSize := 100 }

/-- A transaction whose fee cap (5) is below the witness base fee (10), so
its effective gas tip is undefined there. -/
def wtxLow : PoolTx :=
  ⟨203, 7, 0, 30000, 5, 2, false⟩

/-- A price pool with one sender holding nonce 0, used to exercise the
rejected-replacement path of `PricePool::push`. -/
def wpricepool2 : PricePoolS :=
  { pending := [(7, [(0, wtx 301 0)])],
    caches := [(301, wtx 301 0)],
    limitedSize := 100 }

/-! Shared association-list lemmas. -/

theorem alGet_alSet_self {κ α : Type} [DecidableEq κ] (m : List (κ × α)) (k : κ) (v : α) :
    alGet (alSet m k v) k = some v := by
  induction m with
  | nil => simp [alGet, alSet]
  | cons p rest ih =>
    by_cases h : p.1 = k
    · simp [alSet, alGet, h]
    · simpa [alSet, alGet, h] using ih

theorem alGet_alSet_ne {κ α : Type} [DecidableEq κ] (m : List (κ × α)) (k k0 : κ) (v : α)
    (h : k ≠ k0) : alGet (alSet m k v) k0 = alGet m k0 := by
  induction m with
  | nil => simp [alGet, alSet, h]
  | cons p rest ih =>
    by_cases hp : p.1 = k
    · simp [alSet, alGet, hp, h]
    · simp [alSet, alGet, hp, ih]

theorem alGet_alRemove_self {κ α : Type} [DecidableEq κ] (m : List (κ × α)) (k : κ) :
    alGet (alRemove m k) k = none := by
  induction m with
  | nil => simp [alGet, alRemove]
  | cons p rest ih =>
    by_cases hp : p.1 = k
    · simpa [alRemove, hp] using ih
    · simpa [alRemove, alGet, hp] using ih

theorem alGet_alRemove_ne {κ α : Type} [DecidableEq κ] (m : List (κ × α)) (k k0 : κ)
    (h : k ≠ k0) : alGet (alRemove m k) k0 = alGet m k0 := by
  induction m with
  | nil => simp [alGet, alRemove]
  | cons p rest ih =>
    obtain ⟨k1, v1⟩ := p
    by_cases hp : k1 = k
    · have hne : k1 ≠ k0 := by rw [hp]; exact h
      simp [alRemove, alGet, hp, hne, h, ih]
    · simp [alRemove, alGet, hp, ih]

theorem alGet_mem {κ α : Type} [DecidableEq κ] (m : List (κ × α)) (k : κ) (v : α)
    (h : alGet m k = some v) : (k, v) ∈ m := by
  induction m with
  | nil => simp [alGet] at h
  | cons p rest ih =>
    obtain ⟨k1, v1⟩ := p
    by_cases hp : k1 = k
    · simp only [alGet, hp, if_true, if_pos, Option.some.injEq] at h
      subst hp
      subst h
      exact List.mem_cons_self _ _
    · simp only [alGet, hp, if_neg, not_false_iff] at h
      exact List.mem_cons_of_mem _ (ih h)

theorem mem_alSet {κ α : Type} [DecidableEq κ] (m : List (κ × α)) (k : κ) (v : α) (e : κ × α)
    (h : e ∈ alSet m k v) : e = (k, v) ∨ e ∈ m := by
  induction m with
  | nil =>
    simp only [alSet, List.mem_singleton] at h
    exact Or.inl h
  | cons p rest ih =>
    obtain ⟨k1, v1⟩ := p
    by_cases hp : k1 = k
    · simp only [alSet, hp, if_true, List.mem_cons] at h
      rcases h with h | h
      · exact Or.inl h
      · exact Or.inr (List.mem_cons_of_mem _ h)
    · simp only [alSet, hp, if_false, List.mem_cons] at h
      rcases h with h | h
      · exact Or.inr (by simp [h])
      · rcases ih h with h1 | h1
        · exact Or.inl h1
        · exact Or.inr (List.mem_cons_of_mem _ h1)

/-! Claim C6: base-fee retargeting (`BuildPayload::calc_base_fee`). -/

/-- Counterexample to claim C6 as stated: with `gas_limit = 2`,
`gas_used = 0` and `base_fee = 1` the gas used (0) is below the target (1),
yet the computed decrease rounds to zero and `calc_base_fee` returns the
base fee unchanged — not a value strictly less than it. -/
theorem claim_C6_counterexample :
    calc_base_fee 2 0 1 = 1 ∧ ¬ calc_base_fee 2 0 1 < 1 := by
  constructor
  · rfl
  · decide

/-- Claim C6, amended: with `target = gas_limit / 2`, `calc_base_fee` returns
the base fee unchanged when gas used equals the target, returns at least
`base_fee + 1` when gas used exceeds the target, and when gas used is below
the target returns at most `base_fee` (the decrease step may round to zero,
and the subtraction never goes below zero). -/
theorem claim_C6_base_fee_amended (gasLimit gasUsed baseFee : Nat) :
    (gasUsed = gasLimit / 2 ∧ calc_base_fee gasLimit gasUsed baseFee = baseFee)
    ∨ (gasLimit / 2 < gasUsed ∧ baseFee + 1 ≤ calc_base_fee gasLimit gasUsed baseFee)
    ∨ (gasUsed < gasLimit / 2 ∧ calc_base_fee gasLimit gasUsed baseFee ≤ baseFee) := by
  unfold calc_base_fee
  rcases Nat.lt_trichotomy gasUsed (gasLimit / 2) with h | h | h
  · refine Or.inr (Or.inr ⟨h, ?_⟩)
    have hne : gasUsed ≠ gasLimit / 2 := Nat.ne_of_lt h
    have hnl : ¬ gasLimit / 2 < gasUsed := Nat.not_lt.2 (Nat.le_of_lt h)
    simp only [hne, if_false, hnl]
    exact Nat.sub_le _ _
  · exact Or.inl ⟨h, by simp [h]⟩
  · refine Or.inr (Or.inl ⟨h, ?_⟩)
    have hne : gasUsed ≠ gasLimit / 2 := (Nat.ne_of_lt h).symm
    simp only [hne, if_false, h, if_true]
    have : 1 ≤ max ((gasUsed - gasLimit / 2) * baseFee / (gasLimit / 2) / 8) 1 :=
      le_max_right _ _
    omega

/-! Claim C7: gas-limit retargeting (`BuildPayload::calc_gas_limit`). -/

/-- Counterexample to claim C7 as stated: `calc_gas_limit 4000 4000`
returns 4002, below the claimed floor of 5000; and for
`parent_gas_limit = 1000` (below 1024) the `u64` expression
`parent_gas_limit / 1024 - 1` underflows, giving `calc_gas_limit
1000 1000000 = 999` — the limit moves even though the claimed bound
`parent_gas_limit / 1024 - 1` permits no movement. -/
theorem claim_C7_counterexample :
    calc_gas_limit 4000 4000 = 4002 ∧ calc_gas_limit 4000 4000 < 5000
      ∧ calc_gas_limit 1000 1000000 = 999 := by
  refine ⟨by decide, by decide, by decide⟩

/-- Claim C7, amended: whenever `parent_gas_limit ≥ 1024` (so the delta
expression does not underflow) and `parent_gas_limit + parent_gas_limit /
1024` fits in a `u64`, the returned limit differs from the parent limit by
at most `parent_gas_limit / 1024 - 1`; and whenever additionally
`parent_gas_limit ≥ 5000`, the returned limit is never below 5000. -/
theorem claim_C7_gas_limit_amended (parentGasLimit desiredLimit : Nat)
    (h1024 : 1024 ≤ parentGasLimit)
    (hfit : parentGasLimit + parentGasLimit / 1024 < 2 ^ 64) :
    (calc_gas_limit parentGasLimit desiredLimit
        ≤ parentGasLimit + (parentGasLimit / 1024 - 1)
      ∧ parentGasLimit
        ≤ calc_gas_limit parentGasLimit desiredLimit + (parentGasLimit / 1024 - 1))
    ∧ (5000 ≤ parentGasLimit → 5000 ≤ calc_gas_limit parentGasLimit desiredLimit) := by
  have hq : 1 ≤ parentGasLimit / 1024 := (Nat.one_le_div_iff (by omega)).2 h1024
  have hqlt : parentGasLimit / 1024 ≤ parentGasLimit := Nat.div_le_self _ _
  have hplt : parentGasLimit < 2 ^ 64 := by omega
  unfold calc_gas_limit
  have hdelta : (parentGasLimit / 1024 + (2 ^ 64 - 1)) % 2 ^ 64
      = parentGasLimit / 1024 - 1 := by
    have h2 : parentGasLimit / 1024 + (2 ^ 64 - 1)
        = (parentGasLimit / 1024 - 1) + 1 * 2 ^ 64 := by omega
    rw [h2, Nat.add_mul_mod_self_right]
    exact Nat.mod_eq_of_lt (by omega)
  rw [hdelta]
  set d := parentGasLimit / 1024 - 1 with hd
  set desired := if desiredLimit < 5000 then 5000 else desiredLimit with hdes
  have hdes5000 : 5000 ≤ desired := by
    rw [hdes]; split <;> omega
  by_cases hlt : parentGasLimit < desired
  · simp only [hlt, if_true]
    have hsum : (parentGasLimit + d) % 2 ^ 64 = parentGasLimit + d := by
      apply Nat.mod_eq_of_lt; omega
    rw [hsum]
    by_cases hgt : desired < parentGasLimit + d
    · simp only [hgt, if_true]
      refine ⟨⟨by omega, by omega⟩, fun _ => by omega⟩
    · simp only [hgt, if_false]
      refine ⟨⟨by omega, by omega⟩, fun h5 => by omega⟩
  · simp only [hlt, if_false]
    by_cases hgt : desired < parentGasLimit
    · simp only [hgt, if_true]
      have hdle : d ≤ parentGasLimit := by omega
      have hsub : (parentGasLimit + (2 ^ 64 - d)) % 2 ^ 64 = parentGasLimit - d := by
        have h2 : parentGasLimit + (2 ^ 64 - d) = (parentGasLimit - d) + 1 * 2 ^ 64 := by
          omega
        rw [h2, Nat.add_mul_mod_self_right]
        exact Nat.mod_eq_of_lt (by omega)
      rw [hsub]
      by_cases hlo : parentGasLimit - d < desired
      · simp only [hlo, if_true]
        refine ⟨⟨by omega, by omega⟩, fun _ => by omega⟩
      · simp only [hlo, if_false]
        refine ⟨⟨by omega, by omega⟩, fun _ => by omega⟩
    · simp only [hgt, if_false]
      refine ⟨⟨by omega, by omega⟩, fun _ => by omega⟩

/-- Concrete instance discharging the hypotheses of the amended claim C7: at
`parent_gas_limit = 30000000` the movement bound and the 5000 floor hold. -/
theorem claim_C7_witness :
    (calc_gas_limit 30000000 30000000 ≤ 30000000 + (30000000 / 1024 - 1)
      ∧ 30000000 ≤ calc_gas_limit 30000000 30000000 + (30000000 / 1024 - 1))
    ∧ (5000 ≤ 30000000 → 5000 ≤ calc_gas_limit 30000000 30000000) :=
  claim_C7_gas_limit_amended 30000000 30000000 (by decide) (by decide)

/-! Claim C8: tips strategy (`TipsStrategy::get`). -/

/-- Counterexample to claim C8 as stated: with a configured maximum of 1, a
flat normal bonus of 2 and a reward of 10, `TipsStrategy::get` returns 11 —
the reward plus the capped bonus — while the reward-plus-bonus sum capped at
the configured maximum would be 1.  The final result therefore is not capped
at the configured maximum. -/
theorem claim_C8_counterexample :
    TipsStrategy.get wstrategy 10 [] 0 = 11
      ∧ Nat.min (10 + 2) wstrategy.max ≠ TipsStrategy.get wstrategy 10 [] 0 := by
  refine ⟨by decide, by decide⟩

/-- Claim C8, amended: the final tip equals the reward plus the maximum of
the applicable bonuses (the bundle bonus when at least one bundle landed,
the internal bonus built from its start and the two individually capped
increments, the flat normal bonus), where the cap at the configured maximum
applies to that bonus — not to the reward-plus-bonus sum. -/
theorem claim_C8_tips_amended (s : TipsStrategy) (reward : Nat) (internals : List Nat)
    (bundles : Nat) :
    TipsStrategy.get s reward internals bundles = tipsAmendedSpec s reward internals bundles := by
  have key : ∀ (I B N m : Nat),
      Nat.min (Nat.max (Nat.max I B) N) m = Nat.min m (Nat.max B (Nat.max I N)) := by
    intro I B N m
    simp only [Nat.min_def, Nat.max_def]
    split_ifs <;> omega
  unfold TipsStrategy.get tipsAmendedSpec
  rcases s with ⟨m, b, i, n⟩
  rcases hm : internals.max? with _ | mx <;>
    rcases b with _ | rb <;> rcases i with _ | ri <;> rcases n with _ | rn <;>
    simp only [hm, Option.map_none', Option.map_some', Option.getD_none, Option.getD_some,
      ite_self] <;>
    (congr 1; exact key _ _ _ _)

/-! Claim C9: simulator backpressure (`Simulator::simulate_async` and the
batch `Simulator::simulate`). -/

/-- Claim C9: when the worker pool's queued count is at or above its
capacity and `force` is false, `simulate_async` immediately sends a
`QueueStalled` result on the channel without enqueueing a task, and the
batch receive loop of `simulate` returns that error as soon as it is the
first failing result received. -/
theorem claim_C9_queue_stalled (queuedCount maxCount : Nat) (force : Bool) (tag : Nat)
    (tx : PoolTx) (hsat : maxCount ≤ queuedCount) (hforce : force = false) :
    simulateAsync queuedCount maxCount force tag tx
        = .sentImmediately ⟨tag, tx.hash, some .QueueStalled⟩
    ∧ (∀ (slots : List (Option Hash)) (pre rest : List SimulateResult),
        (∀ r ∈ pre, r.err = none) →
        simulateRecvLoop slots (pre ++ ⟨tag, tx.hash, some .QueueStalled⟩ :: rest)
          = .error .QueueStalled) := by
  subst hforce
  constructor
  · simp [simulateAsync, hsat]
  · intro slots pre rest hpre
    induction pre generalizing slots with
    | nil => simp [simulateRecvLoop]
    | cons r rs ih =>
      have hr : r.err = none := hpre r (List.mem_cons_self _ _)
      simp only [List.cons_append, simulateRecvLoop, hr]
      exact ih _ (fun x hx => hpre x (List.mem_cons_of_mem _ hx))

/-! Characterization of `commit_transaction`, shared by claims C2 and C3. -/

/-- Exhaustive branch enumeration of `commitTransaction`: the two gas-pool
guards, the liveness guard, the tip validation, and the classification of
the execution oracle's outcome, each with the exact environment returned. -/
theorem commitTransaction_cases (exec : ExecOracle) (alive : Bool) (env : Environment)
    (tx : PoolTx) :
    (env.gasPool ≤ 21000 ∧
      commitTransaction exec alive env tx =
        .ok ({ env with checkedTxs := alSet env.checkedTxs tx.hash false },
          .Stop "Not enough gas for further transactions"))
    ∨ (21000 < env.gasPool ∧ env.gasPool < tx.gasLimit ∧
      commitTransaction exec alive env tx =
        .ok ({ env with checkedTxs := alSet env.checkedTxs tx.hash false },
          .Pop "gas pool out of limited"))
    ∨ (21000 < env.gasPool ∧ tx.gasLimit ≤ env.gasPool ∧ alive = false ∧
      commitTransaction exec alive env tx =
        .ok ({ env with checkedTxs := alSet env.checkedTxs tx.hash false },
          .Stop "not alive, maybe timeout"))
    ∨ (21000 < env.gasPool ∧ tx.gasLimit ≤ env.gasPool ∧ alive = true ∧
        tx.effectiveGasTip (some env.headerBaseFee) = none ∧
      commitTransaction exec alive env tx =
        .ok ({ env with checkedTxs := alSet env.checkedTxs tx.hash false },
          .MarkFail "invalid base fee"))
    ∨ (∃ r, 21000 < env.gasPool ∧ tx.gasLimit ≤ env.gasPool ∧ alive = true ∧
        (tx.effectiveGasTip (some env.headerBaseFee)).isSome ∧
        (exec env.state tx).result = .ok r ∧
      commitTransaction exec alive env tx =
        .ok ({ env with
            state := (exec env.state tx).newState,
            gasPool := env.gasPool - r.gasUsed,
            headerGasUsed := env.headerGasUsed + r.gasUsed,
            txs := env.txs ++ [tx],
            receipts := env.receipts ++ [r],
            checkedTxs := alSet (alSet env.checkedTxs tx.hash false) tx.hash true },
          .Success r))
    ∨ (∃ e, 21000 < env.gasPool ∧ tx.gasLimit ≤ env.gasPool ∧ alive = true ∧
        (tx.effectiveGasTip (some env.headerBaseFee)).isSome ∧
        (exec env.state tx).result = .error e ∧
        (((e = .NonceTooLow ∨ e = .NotSupported) ∧
          commitTransaction exec alive env tx =
            .ok ({ env with
                state := (exec env.state tx).newState,
                checkedTxs := alSet (alSet env.checkedTxs tx.hash false) tx.hash true },
              .RemoveTx))
        ∨ (∃ code, e = .StateError code ∧
            commitTransaction exec alive env tx = .error code)
        ∨ ((e = .NonceTooHigh ∨ e = .ExecutePaymentTxFail ∨ e = .InsufficientBaseFee ∨
              e = .InsufficientFunds) ∧
          ∃ msg, commitTransaction exec alive env tx =
            .ok ({ env with
                state := (exec env.state tx).newState,
                checkedTxs := alSet env.checkedTxs tx.hash false },
              .MarkFail msg)))) := by
  by_cases h1 : env.gasPool ≤ 21000
  · exact Or.inl ⟨h1, by simp [commitTransaction, h1]⟩
  · by_cases h2 : env.gasPool < tx.gasLimit
    · exact Or.inr (Or.inl ⟨by omega, h2, by simp [commitTransaction, h1, h2]⟩)
    · cases halive : alive with
      | false =>
        refine Or.inr (Or.inr (Or.inl ⟨by omega, by omega, rfl, ?_⟩))
        simp [commitTransaction, h1, h2]
      | true =>
        rcases htip : tx.effectiveGasTip (some env.headerBaseFee) with _ | tipv
        · refine Or.inr (Or.inr (Or.inr (Or.inl ⟨by omega, by omega, rfl, rfl, ?_⟩)))
          simp [commitTransaction, h1, h2, htip]
        · rcases hex : (exec env.state tx).result with e | r
          · refine Or.inr (Or.inr (Or.inr (Or.inr (Or.inr
              ⟨e, by omega, by omega, rfl, by simp [htip], rfl, ?_⟩))))
            cases e with
            | NonceTooLow =>
                refine Or.inl ⟨Or.inl rfl, ?_⟩
                simp [commitTransaction, h1, h2, htip, hex]
            | NotSupported =>
                refine Or.inl ⟨Or.inr rfl, ?_⟩
                simp [commitTransaction, h1, h2, htip, hex]
            | StateError code =>
                refine Or.inr (Or.inl ⟨code, rfl, ?_⟩)
                simp [commitTransaction, h1, h2, htip, hex]
            | NonceTooHigh =>
                refine Or.inr (Or.inr ⟨Or.inl rfl, "NonceTooHigh", ?_⟩)
                simp [commitTransaction, h1, h2, htip, hex]
            | ExecutePaymentTxFail =>
                refine Or.inr (Or.inr ⟨Or.inr (Or.inl rfl), "ExecutePaymentTxFail", ?_⟩)
                simp [commitTransaction, h1, h2, htip, hex]
            | InsufficientBaseFee =>
                refine Or.inr (Or.inr ⟨Or.inr (Or.inr (Or.inl rfl)), "InsufficientBaseFee", ?_⟩)
                simp [commitTransaction, h1, h2, htip, hex]
            | InsufficientFunds =>
                refine Or.inr (Or.inr ⟨Or.inr (Or.inr (Or.inr rfl)), "InsufficientFunds", ?_⟩)
                simp [commitTransaction, h1, h2, htip, hex]
          · refine Or.inr (Or.inr (Or.inr (Or.inr (Or.inl
              ⟨r, by omega, by omega, rfl, by simp [htip], rfl, ?_⟩))))
            simp [commitTransaction, Environment.useGas, h1, h2, htip, hex]

/-! Claim C1: bundle atomicity in `fill_bundles`. -/

/-- A non-fatal `commitTransaction` either succeeds and appends exactly the
transaction and its receipt, or leaves the committed lists unchanged. -/
theorem commitTransaction_extends (exec : ExecOracle) (alive : Bool) (env : Environment)
    (tx : PoolTx) (env1 : Environment) (act : CommitAction)
    (h : commitTransaction exec alive env tx = .ok (env1, act)) :
    (∃ r, act = .Success r ∧ env1.txs = env.txs ++ [tx] ∧ env1.receipts = env.receipts ++ [r])
    ∨ ((∀ r, act ≠ .Success r) ∧ env1.txs = env.txs ∧ env1.receipts = env.receipts) := by
  rcases commitTransaction_cases exec alive env tx with
    ⟨hg, heq⟩ | ⟨hg1, hg2, heq⟩ | ⟨hg1, hg2, hal, heq⟩ | ⟨hg1, hg2, hal, ht, heq⟩ |
    ⟨r, hg1, hg2, hal, ht, hres, heq⟩ | ⟨e, hg1, hg2, hal, ht, hres, hsub⟩
  · have hh := heq.symm.trans h
    injection hh with hh
    injection hh with hEnv hAct
    subst hEnv; subst hAct
    exact Or.inr ⟨fun r hr => by simp at hr, rfl, rfl⟩
  · have hh := heq.symm.trans h
    injection hh with hh
    injection hh with hEnv hAct
    subst hEnv; subst hAct
    exact Or.inr ⟨fun r hr => by simp at hr, rfl, rfl⟩
  · have hh := heq.symm.trans h
    injection hh with hh
    injection hh with hEnv hAct
    subst hEnv; subst hAct
    exact Or.inr ⟨fun r hr => by simp at hr, rfl, rfl⟩
  · have hh := heq.symm.trans h
    injection hh with hh
    injection hh with hEnv hAct
    subst hEnv; subst hAct
    exact Or.inr ⟨fun r hr => by simp at hr, rfl, rfl⟩
  · have hh := heq.symm.trans h
    injection hh with hh
    injection hh with hEnv hAct
    subst hEnv; subst hAct
    exact Or.inl ⟨r, rfl, rfl, rfl⟩
  · rcases hsub with ⟨hcl, heq⟩ | ⟨code, hcl, heq⟩ | ⟨hcl, msg, heq⟩
    · have hh := heq.symm.trans h
      injection hh with hh
      injection hh with hEnv hAct
      subst hEnv; subst hAct
      exact Or.inr ⟨fun r hr => by simp at hr, rfl, rfl⟩
    · rw [heq] at h; exact nomatch h
    · have hh := heq.symm.trans h
      injection hh with hh
      injection hh with hEnv hAct
      subst hEnv; subst hAct
      exact Or.inr ⟨fun r hr => by simp at hr, rfl, rfl⟩

/-- When every transaction of a bundle commits successfully, the committed
list is extended by exactly the bundle's transactions in submission order,
with one appended receipt per transaction. -/
theorem commitBundleTxs_allOk_txs (exec : ExecOracle) (alive : Bool) :
    ∀ (txsL : List PoolTx) (env env1 : Environment),
      commitBundleTxs exec alive env txsL = .allOk env1 →
      env1.txs = env.txs ++ txsL ∧
      ∃ extraR, env1.receipts = env.receipts ++ extraR ∧ extraR.length = txsL.length := by
  intro txsL
  induction txsL with
  | nil =>
    intro env env1 h
    simp only [commitBundleTxs] at h
    injection h with h
    subst h
    exact ⟨by simp, [], by simp, rfl⟩
  | cons tx rest ih =>
    intro env env1 h
    simp only [commitBundleTxs] at h
    rcases hct : commitTransaction exec alive env tx with code | p
    · rw [hct] at h; exact nomatch h
    · rw [hct] at h
      obtain ⟨envx, act⟩ := p
      rcases act with r | _ | s | s | s | _
      · by_cases har : tx.allowRevert || r.succ
        · simp only [har, if_true] at h
          rcases commitTransaction_extends exec alive env tx envx (.Success r) hct with
            ⟨r0, hr0, htxs, hrec⟩ | ⟨hno, _, _⟩
          · have hreq : r = r0 := by injection hr0
            subst hreq
            have hih := ih _ _ h
            rcases hih with ⟨htxs1, extraR, hrec1, hlen⟩
            refine ⟨by simp [htxs1, htxs], [r] ++ extraR, by simp [hrec1, hrec], by simp [hlen]⟩
          · exact absurd rfl (hno r)
        · simp only [har, if_false] at h
          exact nomatch h
      · exact nomatch h
      · exact nomatch h
      · exact nomatch h
      · exact nomatch h
      · exact nomatch h

/-- When a bundle fails part-way, the environment at the failure point
extends the starting committed lists by equally many transactions and
receipts. -/
theorem commitBundleTxs_failed_extends (exec : ExecOracle) (alive : Bool) :
    ∀ (txsL : List PoolTx) (env env1 : Environment) (txh : Hash) (stop : Bool),
      commitBundleTxs exec alive env txsL = .failed env1 txh stop →
      ∃ extra extraR, env1.txs = env.txs ++ extra ∧ env1.receipts = env.receipts ++ extraR ∧
        extra.length = extraR.length := by
  intro txsL
  induction txsL with
  | nil =>
    intro env env1 txh stop h
    simp only [commitBundleTxs] at h
    exact nomatch h
  | cons tx rest ih =>
    intro env env1 txh stop h
    simp only [commitBundleTxs] at h
    rcases hct : commitTransaction exec alive env tx with code | p
    · rw [hct] at h; exact nomatch h
    · rw [hct] at h
      obtain ⟨envx, act⟩ := p
      rcases commitTransaction_extends exec alive env tx envx act hct with
        ⟨r0, hr0, htxs, hrec⟩ | ⟨hno, htxs, hrec⟩
      · subst hr0
        by_cases har : tx.allowRevert || r0.succ
        · simp only [har, if_true] at h
          rcases ih _ _ _ _ h with ⟨extra, extraR, htxs1, hrec1, hlen⟩
          exact ⟨tx :: extra, r0 :: extraR, by simp [htxs1, htxs], by simp [hrec1, hrec],
            by simp [hlen]⟩
        · simp only [har, if_false] at h
          injection h with hEnv hH hS
          subst hEnv
          exact ⟨[tx], [r0], by simp [htxs], by simp [hrec], rfl⟩
      · rcases act with r | _ | s | s | s | _
        · exact absurd rfl (hno r)
        · injection h with hEnv hH hS
          subst hEnv
          exact ⟨[], [], by simp [htxs], by simp [hrec], rfl⟩
        · injection h with hEnv hH hS
          subst hEnv
          exact ⟨[], [], by simp [htxs], by simp [hrec], rfl⟩
        · injection h with hEnv hH hS
          subst hEnv
          exact ⟨[], [], by simp [htxs], by simp [hrec], rfl⟩
        · injection h with hEnv hH hS
          subst hEnv
          exact ⟨[], [], by simp [htxs], by simp [hrec], rfl⟩
        · injection h with hEnv hH hS
          subst hEnv
          exact ⟨[], [], by simp [htxs], by simp [hrec], rfl⟩

/-- The pop loop of `revert_txs_to` removes exactly the appended suffixes,
recovering the base transaction and receipt lists and never touching the
state. -/
theorem revertTxsToGo_restore :
    ∀ (fuel : Nat) (extra : List PoolTx) (extraR : List Receipt) (env : Environment)
      (base : List PoolTx) (baseR : List Receipt),
      env.txs = base ++ extra → env.receipts = baseR ++ extraR →
      extra.length = extraR.length → extra.length ≤ fuel →
      (revertTxsToGo fuel env base.length).txs = base ∧
      (revertTxsToGo fuel env base.length).receipts = baseR ∧
      (revertTxsToGo fuel env base.length).state = env.state := by
  intro fuel
  induction fuel with
  | zero =>
    intro extra extraR env base baseR htxs hrec hlen hle
    simp only [Nat.le_zero] at hle
    have hex : extra = [] := List.length_eq_zero.mp hle
    subst hex
    simp only [List.length_nil] at hlen
    have hexR : extraR = [] := List.length_eq_zero.mp hlen.symm
    subst hexR
    simp only [revertTxsToGo]
    refine ⟨?_, ?_, trivial⟩
    · simpa using htxs
    · simpa using hrec
  | succ fuel ih =>
    intro extra extraR env base baseR htxs hrec hlen hle
    by_cases hex : extra = []
    · subst hex
      simp only [List.length_nil] at hlen
      have hlenR : extraR = [] := List.length_eq_zero.mp hlen.symm
      subst hlenR
      have hcond : env.txs.length ≤ base.length := by simp [htxs]
      simp only [revertTxsToGo, hcond, if_true]
      refine ⟨?_, ?_, trivial⟩
      · simpa using htxs
      · simpa using hrec
    · have hexR : extraR ≠ [] := by
        intro hc
        subst hc
        simp only [List.length_nil] at hlen
        exact hex (List.length_eq_zero.mp hlen)
      have hcond : ¬ env.txs.length ≤ base.length := by
        simp only [htxs, List.length_append]
        have : 0 < extra.length := List.length_pos.mpr hex
        omega
      obtain ⟨y, hy⟩ : ∃ y, extra.getLast? = some y :=
        Option.isSome_iff_exists.mp (List.getLast?_isSome.mpr hex)
      obtain ⟨z, hz⟩ : ∃ z, extraR.getLast? = some z :=
        Option.isSome_iff_exists.mp (List.getLast?_isSome.mpr hexR)
      have hylast : env.txs.getLast? = some y := by
        rw [htxs, List.getLast?_append_of_ne_nil _ hex]; exact hy
      have hzlast : env.receipts.getLast? = some z := by
        rw [hrec, List.getLast?_append_of_ne_nil _ hexR]; exact hz
      simp only [revertTxsToGo, hcond, if_false, hylast, hzlast]
      have hstep := ih extra.dropLast extraR.dropLast
        (Environment.refundGas
          { env with
            txs := env.txs.dropLast,
            receipts := env.receipts.dropLast,
            checkedTxs := alRemove env.checkedTxs y.hash } z.gasUsed)
        base baseR
        (by
          simp only [Environment.refundGas]
          rw [htxs, List.dropLast_append_of_ne_nil _ hex])
        (by
          simp only [Environment.refundGas]
          rw [hrec, List.dropLast_append_of_ne_nil _ hexR])
        (by rw [List.length_dropLast, List.length_dropLast]; omega)
        (by rw [List.length_dropLast]; omega)
      exact ⟨hstep.1, hstep.2.1, hstep.2.2⟩

/-- Claim C1: within `fill_bundles` each bundle's transactions are committed
strictly in submission order; when every transaction succeeds (or may
revert) the committed list grows by exactly the bundle's transactions and
the bundle is recorded "submitted"; when any transaction fails to commit, or
its receipt reverted with `allow_revert` false, the state is reverted to the
pre-bundle snapshot and the committed transaction and receipt lists are
truncated back to their pre-bundle values (zero bundle transactions remain),
the bundle is recorded reverted at that transaction, and a `Stop` aborts all
remaining bundles; a state error is fatal. -/
theorem claim_C1_bundle_atomicity (exec : ExecOracle) (env : Environment) (b : Bundle)
    (rest : List Bundle) :
    (∀ env1, commitBundleTxs exec true env b.txs = .allOk env1 →
      env1.txs = env.txs ++ b.txs ∧
      fillBundles exec true env (b :: rest) =
        Except.map (fun p => (p.1, (⟨b.hash, .submitted⟩ : BundleResult) :: p.2))
          (fillBundles exec true env1 rest))
    ∧ (∀ env1 txh stop, commitBundleTxs exec true env b.txs = .failed env1 txh stop →
      (revertTxsTo { env1 with state := env.state } env.txs.length).txs = env.txs ∧
      (revertTxsTo { env1 with state := env.state } env.txs.length).receipts = env.receipts ∧
      (revertTxsTo { env1 with state := env.state } env.txs.length).state = env.state ∧
      fillBundles exec true env (b :: rest) =
        (if stop then
          .ok (revertTxsTo { env1 with state := env.state } env.txs.length,
            [⟨b.hash, .revertedInTx txh⟩])
        else
          Except.map (fun p => (p.1, (⟨b.hash, .revertedInTx txh⟩ : BundleResult) :: p.2))
            (fillBundles exec true
              (revertTxsTo { env1 with state := env.state } env.txs.length) rest)))
    ∧ (∀ code, commitBundleTxs exec true env b.txs = .fatal code →
      fillBundles exec true env (b :: rest) = .error code) := by
  refine ⟨?_, ?_, ?_⟩
  · intro env1 h
    have hext := commitBundleTxs_allOk_txs exec true b.txs env env1 h
    refine ⟨hext.1, ?_⟩
    simp only [fillBundles, not_true, if_false, h]
    rcases hfill : fillBundles exec true env1 rest with code | p
    · simp [Except.map]
    · obtain ⟨env2, results⟩ := p
      simp [Except.map]
  · intro env1 txh stop h
    rcases commitBundleTxs_failed_extends exec true b.txs env env1 txh stop h with
      ⟨extra, extraR, htxs, hrec, hlen⟩
    have hres := revertTxsToGo_restore ({ env1 with state := env.state } : Environment).txs.length
      extra extraR { env1 with state := env.state } env.txs env.receipts
      (by simpa using htxs) (by simpa using hrec) hlen
      (by simp only [htxs, List.length_append]; omega)
    refine ⟨hres.1, hres.2.1, hres.2.2, ?_⟩
    simp only [fillBundles, not_true, if_false, h, revertTxsTo]
    cases stop with
    | true => simp
    | false =>
      simp only [if_false, Bool.false_eq_true]
      rcases hfill : fillBundles exec true
          (revertTxsToGo ({ env1 with state := env.state } : Environment).txs.length
            { env1 with state := env.state } env.txs.length) rest with code | p
      · simp [Except.map]
      · obtain ⟨env3, results⟩ := p
        simp [Except.map]
  · intro code h
    simp only [fillBundles, not_true, if_false, h]

/-- Concrete instance discharging the hypotheses of claim C1: a bundle of
three transactions whose second one reverts without `allow_revert` leaves
transactions, receipts and state at their pre-bundle values and is recorded
as reverted at that transaction. -/
theorem claim_C1_witness :
    (revertTxsTo { wbundleFailEnv with state := wenv.state } wenv.txs.length).txs = wenv.txs
    ∧ (revertTxsTo { wbundleFailEnv with state := wenv.state } wenv.txs.length).receipts
        = wenv.receipts
    ∧ (revertTxsTo { wbundleFailEnv with state := wenv.state } wenv.txs.length).state
        = wenv.state
    ∧ fillBundles execSecondReverts true wenv [wbundle] =
        (if false then
          .ok (revertTxsTo { wbundleFailEnv with state := wenv.state } wenv.txs.length,
            [⟨wbundle.hash, .revertedInTx 2⟩])
        else
          Except.map (fun p => (p.1, (⟨wbundle.hash, .revertedInTx 2⟩ : BundleResult) :: p.2))
            (fillBundles execSecondReverts true
              (revertTxsTo { wbundleFailEnv with state := wenv.state } wenv.txs.length) [])) :=
  (claim_C1_bundle_atomicity execSecondReverts wenv wbundle []).2.1 wbundleFailEnv 2 false rfl

/-! Claim C2: gas-pool accounting of `commit_transaction`. -/

/-- Claim C2: under the external executor's contract that a receipt's gas
used never exceeds the transaction's declared gas limit, the gas pool never
underflows: `commit_transaction` stops when the pool is within the fixed
21000 overhead, pops a transaction whose declared limit exceeds the pool,
deducts exactly the receipt's gas used on success (which fits the remaining
pool), and leaves the pool untouched in every non-success outcome. -/
theorem claim_C2_gas_pool (exec : ExecOracle) (alive : Bool) (env : Environment) (tx : PoolTx)
    (hcontract : ∀ s t r, (exec s t).result = .ok r → r.gasUsed ≤ t.gasLimit) :
    ∀ env1 act, commitTransaction exec alive env tx = .ok (env1, act) →
      (env.gasPool ≤ 21000 →
        act = .Stop "Not enough gas for further transactions" ∧ env1.gasPool = env.gasPool)
      ∧ (21000 < env.gasPool → env.gasPool < tx.gasLimit →
        act = .Pop "gas pool out of limited" ∧ env1.gasPool = env.gasPool)
      ∧ (∀ r, act = .Success r →
        tx.gasLimit ≤ env.gasPool ∧ r.gasUsed ≤ env.gasPool ∧
          env1.gasPool = env.gasPool - r.gasUsed)
      ∧ ((∀ r, act ≠ .Success r) → env1.gasPool = env.gasPool) := by
  intro env1 act h
  rcases commitTransaction_cases exec alive env tx with
    ⟨hg, heq⟩ | ⟨hg1, hg2, heq⟩ | ⟨hg1, hg2, hal, heq⟩ | ⟨hg1, hg2, hal, ht, heq⟩ |
    ⟨r, hg1, hg2, hal, ht, hres, heq⟩ | ⟨e, hg1, hg2, hal, ht, hres, hsub⟩
  · have hh := heq.symm.trans h
    injection hh with hh
    injection hh with hEnv hAct
    subst hEnv; subst hAct
    exact ⟨fun _ => ⟨rfl, rfl⟩, fun hc _ => absurd hg (by omega),
      fun r hr => by simp at hr, fun _ => rfl⟩
  · have hh := heq.symm.trans h
    injection hh with hh
    injection hh with hEnv hAct
    subst hEnv; subst hAct
    exact ⟨fun hc => absurd hc (by omega), fun _ _ => ⟨rfl, rfl⟩,
      fun r hr => by simp at hr, fun _ => rfl⟩
  · have hh := heq.symm.trans h
    injection hh with hh
    injection hh with hEnv hAct
    subst hEnv; subst hAct
    exact ⟨fun hc => absurd hc (by omega), fun _ hc => absurd hc (by omega),
      fun r hr => by simp at hr, fun _ => rfl⟩
  · have hh := heq.symm.trans h
    injection hh with hh
    injection hh with hEnv hAct
    subst hEnv; subst hAct
    exact ⟨fun hc => absurd hc (by omega), fun _ hc => absurd hc (by omega),
      fun r hr => by simp at hr, fun _ => rfl⟩
  · have hh := heq.symm.trans h
    injection hh with hh
    injection hh with hEnv hAct
    subst hEnv; subst hAct
    refine ⟨fun hc => absurd hc (by omega), fun _ hc => absurd hc (by omega),
      fun r0 hr0 => ?_, fun hno => absurd rfl (hno r)⟩
    injection hr0 with hr0
    subst hr0
    have hcr := hcontract _ _ _ hres
    exact ⟨hg2, by omega, rfl⟩
  · rcases hsub with ⟨hcl, heq⟩ | ⟨code, hcl, heq⟩ | ⟨hcl, msg, heq⟩
    · have hh := heq.symm.trans h
      injection hh with hh
      injection hh with hEnv hAct
      subst hEnv; subst hAct
      exact ⟨fun hc => absurd hc (by omega), fun _ hc => absurd hc (by omega),
        fun r hr => by simp at hr, fun _ => rfl⟩
    · rw [heq] at h
      exact nomatch h
    · have hh := heq.symm.trans h
      injection hh with hh
      injection hh with hEnv hAct
      subst hEnv; subst hAct
      exact ⟨fun hc => absurd hc (by omega), fun _ hc => absurd hc (by omega),
        fun r hr => by simp at hr, fun _ => rfl⟩

/-- Concrete instance discharging the hypotheses of claim C2: the
always-succeeding oracle's receipt for `wtx 1 0` fits the remaining pool and
the pool shrinks by exactly its gas used. -/
theorem claim_C2_witness :
    (wtx 1 0).gasLimit ≤ wenv.gasPool
      ∧ (⟨30000, true⟩ : Receipt).gasUsed ≤ wenv.gasPool
      ∧ wcommitEnv.gasPool = wenv.gasPool - (⟨30000, true⟩ : Receipt).gasUsed := by
  have h := claim_C2_gas_pool execAllOk true wenv (wtx 1 0)
    (by
      intro s t r hr
      simp only [execAllOk] at hr
      injection hr with hr
      rw [← hr])
    wcommitEnv (.Success ⟨30000, true⟩) (by rfl)
  exact h.2.2.1 ⟨30000, true⟩ rfl

/-! Claim C3: error classification of `commit_transaction`. -/

/-- Claim C3: `commit_transaction` is fatal exactly when the execution layer
reports a state-store error; `NonceTooLow` and `NotSupported` yield
`RemoveTx`; every other execution error yields `MarkFail`; and in every
non-success outcome the committed transactions, the receipts and the gas
pool are unchanged. -/
theorem claim_C3_error_classification (exec : ExecOracle) (alive : Bool) (env : Environment)
    (tx : PoolTx) :
    (∀ code, commitTransaction exec alive env tx = .error code ↔
      (21000 < env.gasPool ∧ tx.gasLimit ≤ env.gasPool ∧ alive = true ∧
        (tx.effectiveGasTip (some env.headerBaseFee)).isSome ∧
        (exec env.state tx).result = .error (.StateError code)))
    ∧ (21000 < env.gasPool → tx.gasLimit ≤ env.gasPool → alive = true →
        (tx.effectiveGasTip (some env.headerBaseFee)).isSome →
        ((exec env.state tx).result = .error .NonceTooLow ∨
          (exec env.state tx).result = .error .NotSupported) →
        ∃ env1, commitTransaction exec alive env tx = .ok (env1, .RemoveTx))
    ∧ (21000 < env.gasPool → tx.gasLimit ≤ env.gasPool → alive = true →
        (tx.effectiveGasTip (some env.headerBaseFee)).isSome →
        ∀ e, (exec env.state tx).result = .error e →
        (e = .NonceTooHigh ∨ e = .ExecutePaymentTxFail ∨ e = .InsufficientBaseFee ∨
          e = .InsufficientFunds) →
        ∃ env1 msg, commitTransaction exec alive env tx = .ok (env1, .MarkFail msg))
    ∧ (∀ env1 act, commitTransaction exec alive env tx = .ok (env1, act) →
        (∀ r, act ≠ .Success r) →
        env1.txs = env.txs ∧ env1.receipts = env.receipts ∧ env1.gasPool = env.gasPool) := by
  refine ⟨?_, ?_, ?_, ?_⟩
  · intro code
    constructor
    · intro h
      rcases commitTransaction_cases exec alive env tx with
        ⟨hg, heq⟩ | ⟨hg1, hg2, heq⟩ | ⟨hg1, hg2, hal, heq⟩ | ⟨hg1, hg2, hal, ht, heq⟩ |
        ⟨r, hg1, hg2, hal, ht, hres, heq⟩ | ⟨e, hg1, hg2, hal, ht, hres, hsub⟩
      · rw [heq] at h; exact nomatch h
      · rw [heq] at h; exact nomatch h
      · rw [heq] at h; exact nomatch h
      · rw [heq] at h; exact nomatch h
      · rw [heq] at h; exact nomatch h
      · rcases hsub with ⟨hcl, heq⟩ | ⟨code0, hcl, heq⟩ | ⟨hcl, msg, heq⟩
        · rw [heq] at h; exact nomatch h
        · rw [heq] at h
          injection h with h
          subst h
          subst hcl
          exact ⟨hg1, hg2, hal, ht, hres⟩
        · rw [heq] at h; exact nomatch h
    · rintro ⟨hg1, hg2, hal, ht, hres⟩
      rcases commitTransaction_cases exec alive env tx with
        ⟨hg, heq⟩ | ⟨hg1a, hg2a, heq⟩ | ⟨hg1a, hg2a, hala, heq⟩ | ⟨hg1a, hg2a, hala, hta, heq⟩ |
        ⟨r, hg1a, hg2a, hala, hta, hresa, heq⟩ | ⟨e, hg1a, hg2a, hala, hta, hresa, hsub⟩
      · omega
      · omega
      · rw [hal] at hala; exact nomatch hala
      · rw [hta] at ht; exact nomatch ht
      · rw [hresa] at hres; exact nomatch hres
      · rw [hresa] at hres
        injection hres with hres
        subst hres
        rcases hsub with ⟨hcl, heq⟩ | ⟨code0, hcl, heq⟩ | ⟨hcl, msg, heq⟩
        · rcases hcl with hcl | hcl <;> exact nomatch hcl
        · injection hcl with hcl
          subst hcl
          exact heq
        · rcases hcl with hcl | hcl | hcl | hcl <;> exact nomatch hcl
  · intro hg1 hg2 hal ht hlow
    rcases commitTransaction_cases exec alive env tx with
      ⟨hg, heq⟩ | ⟨hg1a, hg2a, heq⟩ | ⟨hg1a, hg2a, hala, heq⟩ | ⟨hg1a, hg2a, hala, hta, heq⟩ |
      ⟨r, hg1a, hg2a, hala, hta, hresa, heq⟩ | ⟨e, hg1a, hg2a, hala, hta, hresa, hsub⟩
    · omega
    · omega
    · rw [hal] at hala; exact nomatch hala
    · rw [hta] at ht; exact nomatch ht
    · rcases hlow with hlow | hlow <;> (rw [hresa] at hlow; exact nomatch hlow)
    · have he : e = .NonceTooLow ∨ e = .NotSupported := by
        rcases hlow with hlow | hlow <;> rw [hresa] at hlow <;> injection hlow with hlow <;>
          [exact Or.inl hlow; exact Or.inr hlow]
      rcases hsub with ⟨hcl, heq⟩ | ⟨code0, hcl, heq⟩ | ⟨hcl, msg, heq⟩
      · exact ⟨_, heq⟩
      · rcases he with he | he <;> (subst he; exact nomatch hcl)
      · rcases he with he | he <;> subst he <;>
          (rcases hcl with hcl | hcl | hcl | hcl <;> exact nomatch hcl)
  · intro hg1 hg2 hal ht e hrese hcls
    rcases commitTransaction_cases exec alive env tx with
      ⟨hg, heq⟩ | ⟨hg1a, hg2a, heq⟩ | ⟨hg1a, hg2a, hala, heq⟩ | ⟨hg1a, hg2a, hala, hta, heq⟩ |
      ⟨r, hg1a, hg2a, hala, hta, hresa, heq⟩ | ⟨e0, hg1a, hg2a, hala, hta, hresa, hsub⟩
    · omega
    · omega
    · rw [hal] at hala; exact nomatch hala
    · rw [hta] at ht; exact nomatch ht
    · rw [hresa] at hrese; exact nomatch hrese
    · rw [hresa] at hrese
      injection hrese with hrese
      subst hrese
      rcases hsub with ⟨hcl, heq⟩ | ⟨code0, hcl, heq⟩ | ⟨hcl, msg, heq⟩
      · rcases hcls with hc | hc | hc | hc <;> subst hc <;>
          (rcases hcl with hcl | hcl <;> exact nomatch hcl)
      · rcases hcls with hc | hc | hc | hc <;> subst hc <;> exact nomatch hcl
      · exact ⟨_, msg, heq⟩
  · intro env1 act h hno
    rcases commitTransaction_cases exec alive env tx with
      ⟨hg, heq⟩ | ⟨hg1a, hg2a, heq⟩ | ⟨hg1a, hg2a, hala, heq⟩ | ⟨hg1a, hg2a, hala, hta, heq⟩ |
      ⟨r, hg1a, hg2a, hala, hta, hresa, heq⟩ | ⟨e0, hg1a, hg2a, hala, hta, hresa, hsub⟩
    · have hh := heq.symm.trans h
      injection hh with hh
      injection hh with hEnv hAct
      subst hEnv
      exact ⟨rfl, rfl, rfl⟩
    · have hh := heq.symm.trans h
      injection hh with hh
      injection hh with hEnv hAct
      subst hEnv
      exact ⟨rfl, rfl, rfl⟩
    · have hh := heq.symm.trans h
      injection hh with hh
      injection hh with hEnv hAct
      subst hEnv
      exact ⟨rfl, rfl, rfl⟩
    · have hh := heq.symm.trans h
      injection hh with hh
      injection hh with hEnv hAct
      subst hEnv
      exact ⟨rfl, rfl, rfl⟩
    · have hh := heq.symm.trans h
      injection hh with hh
      injection hh with hEnv hAct
      subst hAct
      exact absurd rfl (hno r)
    · rcases hsub with ⟨hcl, heq⟩ | ⟨code0, hcl, heq⟩ | ⟨hcl, msg, heq⟩
      · have hh := heq.symm.trans h
        injection hh with hh
        injection hh with hEnv hAct
        subst hEnv
        exact ⟨rfl, rfl, rfl⟩
      · rw [heq] at h; exact nomatch h
      · have hh := heq.symm.trans h
        injection hh with hh
        injection hh with hEnv hAct
        subst hEnv
        exact ⟨rfl, rfl, rfl⟩

/-- Concrete instance discharging the hypotheses of claim C3: a state-layer
fault with code 5 propagates as the fatal round error. -/
theorem claim_C3_witness :
    commitTransaction execStateErr true wenv (wtx 1 0) = .error 5 := by
  exact ((claim_C3_error_classification execStateErr true wenv (wtx 1 0)).1 5).mpr
    ⟨by decide, by decide, rfl, by decide, rfl⟩

/-- Concrete instance discharging the hypotheses of claim C9: a saturated
pool (4 of 4 queued, `force = false`) yields an immediately sent
`QueueStalled` result, and the batch receive loop returns `QueueStalled`. -/
theorem claim_C9_witness :
    simulateAsync 4 4 false 0 (wtx 1 0)
        = .sentImmediately ⟨0, (wtx 1 0).hash, some .QueueStalled⟩
    ∧ simulateRecvLoop [none] ([] ++ ⟨0, (wtx 1 0).hash, some .QueueStalled⟩ :: [])
        = .error .QueueStalled := by
  have h := claim_C9_queue_stalled 4 4 false 0 (wtx 1 0) (by decide) rfl
  exact ⟨h.1, h.2 [none] [] [] (by intro r hr; cases hr)⟩

/-! Claim C4: nonce replacement in the sequence pool
(`SeqPoolList::push`). -/

/-- The head scan of `SeqPoolList::push` walks past the strictly
lower-nonce entries unchanged and breaks at the equal-nonce entry, evicting
it from the transaction and order maps. -/
theorem scanAccount_finds (nonce : Nat) (hash : Hash) (txs : List (Hash × TxInfo))
    (order : List (Nat × Hash)) :
    ∀ (pre : List (Nat × Hash)) (hOld : Hash) (post : List (Nat × Hash)) (idx : Nat)
      (infoOld : TxInfo),
      (∀ p ∈ pre, p.1 < nonce) → hash ≠ hOld → alGet txs hOld = some infoOld →
      scanAccount nonce hash txs order (pre ++ (nonce, hOld) :: post) idx
        = .breakAt (idx + pre.length) (alRemove txs hOld) (alRemove order infoOld.seq) := by
  intro pre
  induction pre with
  | nil =>
    intro hOld post idx infoOld hpre hne hold
    have hc1 : ¬ (nonce = nonce ∧ hash = hOld) := by
      rintro ⟨_, hc⟩; exact hne hc
    rw [List.nil_append, scanAccount, if_neg hc1, if_pos rfl, hold]
    simp
  | cons p pre ih =>
    intro hOld post idx infoOld hpre hne hold
    obtain ⟨n0, h0⟩ := p
    have hlt : n0 < nonce := hpre (n0, h0) (List.mem_cons_self _ _)
    have hc1 : ¬ (nonce = n0 ∧ hash = h0) := by
      rintro ⟨hc, _⟩; omega
    have hc2 : ¬ nonce = n0 := by omega
    have hc3 : ¬ nonce ≤ n0 := by omega
    rw [List.cons_append]
    rw [scanAccount, if_neg hc1, if_neg hc2, if_neg hc3]
    rw [ih hOld post (idx + 1) infoOld
      (fun q hq => hpre q (List.mem_cons_of_mem _ hq)) hne hold]
    congr 1
    simp only [List.length_cons]
    omega

/-- The re-sequencing loop appends the surviving entries to the account
vector in order, hands each of them the next fresh sequence number, and
leaves every other hash's entry untouched. -/
theorem resequence_spec :
    ∀ (entries : List (Nat × Hash)) (txs : List (Hash × TxInfo)) (order : List (Nat × Hash))
      (seqCtr : Nat) (account : List (Nat × Hash)),
      (∀ p ∈ entries, (alGet txs p.2).isSome) →
      (entries.map Prod.snd).Nodup →
      (resequence txs order seqCtr account entries).2.2.2 = account ++ entries ∧
      (resequence txs order seqCtr account entries).2.2.1 = seqCtr + entries.length ∧
      (∀ h, h ∉ entries.map Prod.snd →
        alGet (resequence txs order seqCtr account entries).1 h = alGet txs h) ∧
      (∀ i (hi : i < entries.length), ∃ info0,
        alGet txs (entries.get ⟨i, hi⟩).2 = some info0 ∧
        alGet (resequence txs order seqCtr account entries).1 (entries.get ⟨i, hi⟩).2
          = some { info0 with seq := seqCtr + i }) := by
  intro entries
  induction entries with
  | nil =>
    intro txs order seqCtr account hsome hnodup
    refine ⟨by simp [resequence], by simp [resequence], fun h _ => by simp [resequence],
      fun i hi => absurd hi (by simp)⟩
  | cons e rest ih =>
    intro txs order seqCtr account hsome hnodup
    obtain ⟨n0, h0⟩ := e
    obtain ⟨info0, hinfo0⟩ : ∃ info0, alGet txs h0 = some info0 :=
      Option.isSome_iff_exists.mp (hsome (n0, h0) (List.mem_cons_self _ _))
    have hnotin : h0 ∉ rest.map Prod.snd := by
      have := hnodup
      simp only [List.map_cons, List.nodup_cons] at this
      exact this.1
    have hrestsome : ∀ p ∈ rest, (alGet (alSet txs h0 { info0 with seq := seqCtr }) p.2).isSome := by
      intro p hp
      have hpne : p.2 ≠ h0 := by
        intro hc
        exact hnotin (hc ▸ List.mem_map_of_mem Prod.snd hp)
      rw [alGet_alSet_ne _ _ _ _ (fun hc => hpne hc.symm)]
      exact hsome p (List.mem_cons_of_mem _ hp)
    have hrestnodup : (rest.map Prod.snd).Nodup := by
      have := hnodup
      simp only [List.map_cons, List.nodup_cons] at this
      exact this.2
    have hstep := ih (alSet txs h0 { info0 with seq := seqCtr })
      (alSet (alRemove order info0.seq) seqCtr h0) (seqCtr + 1) (account ++ [(n0, h0)])
      hrestsome hrestnodup
    have hunfold : resequence txs order seqCtr account ((n0, h0) :: rest)
        = resequence (alSet txs h0 { info0 with seq := seqCtr })
            (alSet (alRemove order info0.seq) seqCtr h0) (seqCtr + 1)
            (account ++ [(n0, h0)]) rest := by
      simp only [resequence, hinfo0]
    rw [hunfold]
    refine ⟨?_, ?_, ?_, ?_⟩
    · rw [hstep.1]; simp
    · rw [hstep.2.1]; simp only [List.length_cons]; omega
    · intro h hnot
      simp only [List.map_cons, List.mem_cons, not_or] at hnot
      rw [hstep.2.2.1 h hnot.2, alGet_alSet_ne _ _ _ _ (fun hc => hnot.1 hc.symm)]
    · intro i hi
      cases i with
      | zero =>
        refine ⟨info0, hinfo0, ?_⟩
        show alGet _ h0 = _
        rw [hstep.2.2.1 h0 hnotin, alGet_alSet_self]
        simp
      | succ j =>
        have hj : j < rest.length := by simpa using hi
        obtain ⟨info1, hinfo1, hres1⟩ := hstep.2.2.2 j hj
        have hne0 : (rest.get ⟨j, hj⟩).2 ≠ h0 := by
          intro hc
          exact hnotin (hc ▸ List.mem_map_of_mem Prod.snd (rest.get_mem _ _))
        refine ⟨info1, ?_, ?_⟩
        · show alGet txs (rest.get ⟨j, hj⟩).2 = some info1
          rw [← alGet_alSet_ne txs h0 (rest.get ⟨j, hj⟩).2 { info0 with seq := seqCtr }
            (fun hc => hne0 hc.symm)]
          exact hinfo1
        · show alGet _ (rest.get ⟨j, hj⟩).2 = _
          have harith : seqCtr + 1 + j = seqCtr + (j + 1) := by omega
          rw [harith] at hres1
          exact hres1

/-- Claim C4: pushing into the sequence pool a transaction whose account
already holds its nonce under a different hash evicts the old entry,
re-assigns fresh tail sequence numbers `seq+1, seq+2, …` to that account's
later-nonce entries in their original (nonce) order, keeps the account
vector's relative order, gives the new transaction the current sequence
number, and leaves every other hash's stored entry — in particular every
other account's — untouched. -/
theorem claim_C4_seq_pool_replacement (l : SeqPoolList) (tx : PoolTx)
    (pre post : List (Nat × Hash)) (hOld : Hash) (infoOld : TxInfo)
    (hacc : alGet l.accounts tx.caller = some (pre ++ (tx.nonce, hOld) :: post))
    (hpre : ∀ p ∈ pre, p.1 < tx.nonce)
    (hne : tx.hash ≠ hOld)
    (hInfoOld : alGet l.txs hOld = some infoOld)
    (hpost : ∀ p ∈ post, (alGet l.txs p.2).isSome)
    (hnodup : (post.map Prod.snd).Nodup)
    (hOldpost : hOld ∉ post.map Prod.snd)
    (hhashpost : tx.hash ∉ post.map Prod.snd) :
    (l.push tx).2 = tx.hash ∧
    alGet (l.push tx).1.txs hOld = none ∧
    alGet (l.push tx).1.accounts tx.caller = some (pre ++ (tx.nonce, tx.hash) :: post) ∧
    alGet (l.push tx).1.txs tx.hash = some ⟨tx, l.seq⟩ ∧
    (∀ i (hi : i < post.length), ∃ info0,
      alGet l.txs (post.get ⟨i, hi⟩).2 = some info0 ∧
      alGet (l.push tx).1.txs (post.get ⟨i, hi⟩).2
        = some { info0 with seq := l.seq + 1 + i }) ∧
    (∀ h, h ≠ hOld → h ≠ tx.hash → h ∉ post.map Prod.snd →
      alGet (l.push tx).1.txs h = alGet l.txs h) ∧
    (∀ a, a ≠ tx.caller → alGet (l.push tx).1.accounts a = alGet l.accounts a) ∧
    (l.push tx).1.seq = l.seq + 1 + post.length := by
  have hsome : (alGet l.accounts tx.caller).isSome := by rw [hacc]; rfl
  have hpostRm : ∀ p ∈ post, (alGet (alRemove l.txs hOld) p.2).isSome := by
    intro p hp
    have hpne : hOld ≠ p.2 := by
      intro hc
      exact hOldpost (hc ▸ List.mem_map_of_mem Prod.snd hp)
    rw [alGet_alRemove_ne _ _ _ hpne]
    exact hpost p hp
  have hseq := resequence_spec post (alRemove l.txs hOld)
    (alSet (alRemove l.order infoOld.seq) l.seq tx.hash) (l.seq + 1)
    (pre ++ [(tx.nonce, tx.hash)]) hpostRm hnodup
  have hscan := scanAccount_finds tx.nonce tx.hash l.txs l.order pre hOld post 0 infoOld
    hpre hne hInfoOld
  have hpush : l.push tx =
      ({ order := (resequence (alRemove l.txs hOld)
            (alSet (alRemove l.order infoOld.seq) l.seq tx.hash) (l.seq + 1)
            (pre ++ [(tx.nonce, tx.hash)]) post).2.1,
         txs := alSet (resequence (alRemove l.txs hOld)
            (alSet (alRemove l.order infoOld.seq) l.seq tx.hash) (l.seq + 1)
            (pre ++ [(tx.nonce, tx.hash)]) post).1 tx.hash ⟨tx, l.seq⟩,
         accounts := alSet l.accounts tx.caller
           ((resequence (alRemove l.txs hOld)
            (alSet (alRemove l.order infoOld.seq) l.seq tx.hash) (l.seq + 1)
            (pre ++ [(tx.nonce, tx.hash)]) post).2.2.2),
         seq := (resequence (alRemove l.txs hOld)
            (alSet (alRemove l.order infoOld.seq) l.seq tx.hash) (l.seq + 1)
            (pre ++ [(tx.nonce, tx.hash)]) post).2.2.1 }, tx.hash) := by
    unfold SeqPoolList.push
    simp only [hsome, hacc, Option.isSome_some, eq_self_iff_true, if_true, Option.getD_some]
    rw [hscan]
    dsimp only []
    simp only [Nat.zero_add]
    have htake : (pre ++ (tx.nonce, hOld) :: post).take pre.length = pre :=
      List.take_left pre ((tx.nonce, hOld) :: post)
    have hdrop : (pre ++ (tx.nonce, hOld) :: post).drop pre.length
        = (tx.nonce, hOld) :: post :=
      List.drop_left pre ((tx.nonce, hOld) :: post)
    rw [htake, hdrop]
    have hstep1 : resequence (alRemove l.txs hOld)
        (alSet (alRemove l.order infoOld.seq) l.seq tx.hash) (l.seq + 1)
        (pre ++ [(tx.nonce, tx.hash)]) ((tx.nonce, hOld) :: post)
        = resequence (alRemove l.txs hOld)
            (alSet (alRemove l.order infoOld.seq) l.seq tx.hash) (l.seq + 1)
            (pre ++ [(tx.nonce, tx.hash)]) post := by
      simp only [resequence, alGet_alRemove_self]
    rw [hstep1]
  rw [hpush]
  refine ⟨rfl, ?_, ?_, ?_, ?_, ?_, ?_, ?_⟩
  · rw [alGet_alSet_ne _ _ _ _ hne, hseq.2.2.1 hOld hOldpost, alGet_alRemove_self]
  · rw [alGet_alSet_self, hseq.1]
    simp
  · rw [alGet_alSet_self]
  · intro i hi
    obtain ⟨info0, hinfo0, hres0⟩ := hseq.2.2.2 i hi
    have hpne : hOld ≠ (post.get ⟨i, hi⟩).2 := by
      intro hc
      exact hOldpost (hc ▸ List.mem_map_of_mem Prod.snd (post.get_mem _ _))
    have hhne : tx.hash ≠ (post.get ⟨i, hi⟩).2 := by
      intro hc
      exact hhashpost (hc ▸ List.mem_map_of_mem Prod.snd (post.get_mem _ _))
    refine ⟨info0, ?_, ?_⟩
    · rw [← alGet_alRemove_ne l.txs hOld _ hpne]
      exact hinfo0
    · rw [alGet_alSet_ne _ _ _ _ hhne]
      exact hres0
  · intro h hne1 hne2 hnot
    rw [alGet_alSet_ne _ _ _ _ (fun hc => hne2 hc.symm), hseq.2.2.1 h hnot,
      alGet_alRemove_ne _ _ _ (fun hc => hne1 hc.symm)]
  · intro a ha
    rw [alGet_alSet_ne _ _ _ _ (fun hc => ha hc.symm)]
  · rw [hseq.2.1]

/-- Concrete instance discharging the hypotheses of claim C4: replacing the
nonce-1 transaction of the account evicts hash 101, re-sequences the nonce-2
entry to the tail (it receives sequence number 4 while the replacement
receives 3), and keeps the account vector in nonce order. -/
theorem claim_C4_witness :
    (wseqpool.push (wtx 110 1)).2 = 110 ∧
    alGet (wseqpool.push (wtx 110 1)).1.txs 101 = none ∧
    alGet (wseqpool.push (wtx 110 1)).1.accounts 7
      = some [(0, 100), (1, 110), (2, 102)] ∧
    alGet (wseqpool.push (wtx 110 1)).1.txs 110 = some ⟨wtx 110 1, 3⟩ ∧
    (∃ info0, alGet wseqpool.txs 102 = some info0 ∧
      alGet (wseqpool.push (wtx 110 1)).1.txs 102 = some { info0 with seq := 4 }) ∧
    alGet (wseqpool.push (wtx 110 1)).1.txs 100 = alGet wseqpool.txs 100 ∧
    (wseqpool.push (wtx 110 1)).1.seq = 5 := by
  have h := claim_C4_seq_pool_replacement wseqpool (wtx 110 1)
    [(0, 100)] [(2, 102)] 101 ⟨wtx 101 1, 1⟩
    (by decide) (by decide) (by decide) (by decide) (by decide) (by decide)
    (by decide) (by decide)
  refine ⟨h.1, h.2.1, by simpa using h.2.2.1, h.2.2.2.1, ?_, ?_, ?_⟩
  · have h4 := h.2.2.2.2.1 0 (by decide)
    simpa using h4
  · exact h.2.2.2.2.2.1 100 (by decide) (by decide) (by decide)
  · simpa using h.2.2.2.2.2.2.2

/-! Claim C5: consecutive-nonce runs from `PricePool::list`
(`SortedMap::flatten`). -/

/-- The relation between successive transactions of a returned run: the
nonce increases by exactly one. -/
def NonceStep (a b : PoolTx) : Prop := b.nonce = a.nonce + 1

instance : DecidableRel NonceStep := fun a b => by
  unfold NonceStep; infer_instance

/-- The flatten loop only ever extends a consecutive-nonce accumulator into a
consecutive-nonce result. -/
theorem flattenGo_chain (baseFee : Option Nat) :
    ∀ (items : SortedMapRep) (notCheck : Bool) (acc : List PoolTx) (filter : Filter)
      (dropped : Nat),
      (∀ q ∈ items, q.2.nonce = q.1) →
      List.Chain' NonceStep acc →
      List.Chain' NonceStep (flattenGo baseFee items notCheck acc filter dropped).1 := by
  intro items
  induction items with
  | nil =>
    intro notCheck acc filter dropped hkeys hacc
    simpa [flattenGo] using hacc
  | cons q rest ih =>
    intro notCheck acc filter dropped hkeys hacc
    obtain ⟨nonce, txInfo⟩ := q
    have hkey : txInfo.nonce = nonce := hkeys (nonce, txInfo) (List.mem_cons_self _ _)
    have hkrest : ∀ q ∈ rest, q.2.nonce = q.1 :=
      fun q hq => hkeys q (List.mem_cons_of_mem _ hq)
    rw [flattenGo]
    rcases hv : (if notCheck then none else alGet filter txInfo.hash) with _ | b
    · rcases htip : txInfo.effectiveGasTip baseFee with _ | tv
      · exact hacc
      · rcases hlast : acc.getLast? with _ | lastTx
        · have haccnil : acc = [] := List.getLast?_eq_none_iff.mp hlast
          subst haccnil
          exact ih true ([] ++ [txInfo]) filter dropped hkrest (by simp)
        · show List.Chain' NonceStep
            (if nonce ≤ lastTx.nonce ∨ nonce - lastTx.nonce ≠ 1 then (acc, filter, dropped)
             else flattenGo baseFee rest true (acc ++ [txInfo]) filter dropped).1
          by_cases hbrk : nonce ≤ lastTx.nonce ∨ nonce - lastTx.nonce ≠ 1
          · rw [if_pos hbrk]
            exact hacc
          · rw [if_neg hbrk]
            refine ih true (acc ++ [txInfo]) filter dropped hkrest ?_
            rw [List.chain'_append]
            refine ⟨hacc, List.chain'_singleton _, ?_⟩
            intro a ha b hb
            simp only [List.head?_cons, Option.mem_def, Option.some.injEq] at hb
            subst hb
            rw [hlast, Option.mem_def, Option.some.injEq] at ha
            subst ha
            push_neg at hbrk
            unfold NonceStep
            omega
    · cases b with
      | true => exact ih notCheck acc filter dropped hkrest hacc
      | false => exact hacc

/-- Every per-account run produced by the account iteration of
`PricePool::list` has strictly consecutive nonces. -/
theorem listGo_chain (limitedSize : Nat) (baseFee : Option Nat) (limit : Nat) :
    ∀ (entries : List (Addr × SortedMapRep)) (filter : Filter)
      (caches : List (Hash × PoolTx)) (totalLen : Nat)
      (accPending : List (Addr × SortedMapRep)) (accResult : List (Addr × List PoolTx)),
      (∀ e ∈ entries, ∀ q ∈ e.2, q.2.nonce = q.1) →
      (∀ x ∈ accResult, List.Chain' NonceStep x.2) →
      ∀ x ∈ (listGo limitedSize baseFee limit entries filter caches totalLen
        accPending accResult).1, List.Chain' NonceStep x.2 := by
  intro entries
  induction entries with
  | nil =>
    intro filter caches totalLen accPending accResult hkeys hacc x hx
    simp only [listGo] at hx
    exact hacc x hx
  | cons e rest ih =>
    intro filter caches totalLen accPending accResult hkeys hacc x hx
    obtain ⟨addr, items⟩ := e
    have hkey : ∀ q ∈ items, q.2.nonce = q.1 :=
      fun q hq => hkeys (addr, items) (List.mem_cons_self _ _) q hq
    have hkrest : ∀ e ∈ rest, ∀ q ∈ e.2, q.2.nonce = q.1 :=
      fun e he => hkeys e (List.mem_cons_of_mem _ he)
    have hflat : List.Chain' NonceStep (flatten items filter baseFee).1 :=
      flattenGo_chain baseFee items false [] filter 0 hkey List.chain'_nil
    have haccNew : ∀ y ∈ accResult ++ [(addr, (flatten items filter baseFee).1)],
        List.Chain' NonceStep y.2 := by
      intro y hy
      rcases List.mem_append.mp hy with hy | hy
      · exact hacc y hy
      · simp only [List.mem_singleton] at hy
        subst hy
        exact hflat
    rw [listGo] at hx
    by_cases hc1 : (flatten items filter baseFee).1.length ≠ 0 ∧ limit ≤ accResult.length + 1
    · rw [if_pos hc1] at hx
      exact haccNew x hx
    · rw [if_neg hc1] at hx
      have haccNew1 : ∀ y ∈ (if (flatten items filter baseFee).1.length ≠ 0 then
          accResult ++ [(addr, (flatten items filter baseFee).1)] else accResult),
          List.Chain' NonceStep y.2 := by
        intro y hy
        by_cases hc : (flatten items filter baseFee).1.length ≠ 0
        · rw [if_pos hc] at hy
          exact haccNew y hy
        · rw [if_neg hc] at hy
          exact hacc y hy
      by_cases hc2 : (flatten items filter baseFee).2.2 ≠ 0 ∧
          limitedSize < totalLen + items.length
      · rw [if_pos hc2] at hx
        exact ih _ _ _ _ _ hkrest haccNew1 x hx
      · rw [if_neg hc2] at hx
        exact ih _ _ _ _ _ hkrest haccNew1 x hx

/-- Claim C5: every per-account run returned by `PricePool::list` has
strictly consecutive nonces (each one greater than its predecessor by
exactly one); and whenever the flatten scan reaches a not-yet-filtered
transaction whose effective gas tip is undefined at the given base fee, the
run stops right there (nothing after it is returned) and that transaction is
recorded as dropped (`false`) in the filter map. -/
theorem claim_C5_price_list_runs (p : PricePoolS) (filter : Filter) (baseFee : Option Nat)
    (limit : Nat)
    (hkeys : ∀ e ∈ p.pending, ∀ q ∈ e.2, q.2.nonce = q.1) :
    (∀ addr run, (addr, run) ∈ (p.list filter baseFee limit).1 →
      List.Chain' NonceStep run)
    ∧ (∀ (nonce : Nat) (txInfo : PoolTx) (restItems : SortedMapRep) (notCheck : Bool)
        (acc : List PoolTx) (flt : Filter) (dropped : Nat),
        (notCheck = true ∨ alGet flt txInfo.hash = none) →
        txInfo.effectiveGasTip baseFee = none →
        flattenGo baseFee ((nonce, txInfo) :: restItems) notCheck acc flt dropped
          = (acc, alSet flt txInfo.hash false, dropped + 1)) := by
  constructor
  · intro addr run hmem
    exact listGo_chain p.limitedSize baseFee limit p.pending filter p.caches 0 [] []
      hkeys (fun x hx => absurd hx (List.not_mem_nil x)) (addr, run) hmem
  · intro nonce txInfo restItems notCheck acc flt dropped hreach htip
    rw [flattenGo, htip]
    rcases hreach with hreach | hreach
    · subst hreach
      rfl
    · cases notCheck with
      | true => rfl
      | false =>
        rw [hreach]
        rfl

/-- Concrete instance discharging the hypotheses of claim C5: the witness
pool's single account yields the consecutive run of nonces 0 and 1, and a
low-fee-cap transaction reached by the scan ends the run and is marked
dropped in the filter. -/
theorem claim_C5_witness :
    List.Chain' NonceStep [wtx 201 0, wtx 202 1]
    ∧ flattenGo (some 10) [(0, wtxLow)] true [wtx 201 0] [] 0
        = ([wtx 201 0], alSet [] wtxLow.hash false, 1) := by
  have h := claim_C5_price_list_runs wpricepool [] (some 10) 5 (by decide)
  refine ⟨h.1 7 [wtx 201 0, wtx 202 1] (by decide), ?_⟩
  exact h.2 0 wtxLow [] true [wtx 201 0] [] 0 (Or.inl rfl) (by decide)

/-! Claim C10: rejected replacements still enter the hash cache
(`PricePool::push`). -/

/-- Membership in a flattened run comes from the item list (or the starting
accumulator). -/
theorem flattenGo_mem (baseFee : Option Nat) :
    ∀ (items : SortedMapRep) (notCheck : Bool) (acc : List PoolTx) (filter : Filter)
      (dropped : Nat) (x : PoolTx),
      x ∈ (flattenGo baseFee items notCheck acc filter dropped).1 →
      x ∈ acc ∨ ∃ n, (n, x) ∈ items := by
  intro items
  induction items with
  | nil =>
    intro notCheck acc filter dropped x hx
    exact Or.inl hx
  | cons q rest ih =>
    intro notCheck acc filter dropped x hx
    obtain ⟨nonce, txInfo⟩ := q
    rw [flattenGo] at hx
    rcases hv : (if notCheck then none else alGet filter txInfo.hash) with _ | b
    · rw [hv] at hx
      rcases htip : txInfo.effectiveGasTip baseFee with _ | tv
      · rw [htip] at hx
        exact Or.inl hx
      · rw [htip] at hx
        rcases hlast : acc.getLast? with _ | lastTx
        · rw [hlast] at hx
          replace hx : x ∈ (flattenGo baseFee rest true (acc ++ [txInfo]) filter dropped).1 := hx
          rcases ih true (acc ++ [txInfo]) filter dropped x hx with hm | ⟨n, hm⟩
          · rcases List.mem_append.mp hm with hm | hm
            · exact Or.inl hm
            · simp only [List.mem_singleton] at hm
              subst hm
              exact Or.inr ⟨nonce, List.mem_cons_self _ _⟩
          · exact Or.inr ⟨n, List.mem_cons_of_mem _ hm⟩
        · rw [hlast] at hx
          replace hx : x ∈ (if nonce ≤ lastTx.nonce ∨ nonce - lastTx.nonce ≠ 1
              then (acc, filter, dropped)
              else flattenGo baseFee rest true (acc ++ [txInfo]) filter dropped).1 := hx
          by_cases hbrk : nonce ≤ lastTx.nonce ∨ nonce - lastTx.nonce ≠ 1
          · rw [if_pos hbrk] at hx
            exact Or.inl hx
          · rw [if_neg hbrk] at hx
            rcases ih true (acc ++ [txInfo]) filter dropped x hx with hm | ⟨n, hm⟩
            · rcases List.mem_append.mp hm with hm | hm
              · exact Or.inl hm
              · simp only [List.mem_singleton] at hm
                subst hm
                exact Or.inr ⟨nonce, List.mem_cons_self _ _⟩
            · exact Or.inr ⟨n, List.mem_cons_of_mem _ hm⟩
    · rw [hv] at hx
      cases b with
      | true =>
        rcases ih notCheck acc filter dropped x hx with hm | ⟨n, hm⟩
        · exact Or.inl hm
        · exact Or.inr ⟨n, List.mem_cons_of_mem _ hm⟩
      | false => exact Or.inl hx

/-- Every run returned by the account iteration draws its transactions from
the item list of some pending entry. -/
theorem listGo_mem (limitedSize : Nat) (baseFee : Option Nat) (limit : Nat) :
    ∀ (entries : List (Addr × SortedMapRep)) (filter : Filter)
      (caches : List (Hash × PoolTx)) (totalLen : Nat)
      (accPending : List (Addr × SortedMapRep)) (accResult : List (Addr × List PoolTx))
      (a : Addr) (run : List PoolTx),
      (a, run) ∈ (listGo limitedSize baseFee limit entries filter caches totalLen
        accPending accResult).1 →
      (a, run) ∈ accResult ∨
        ∃ items, (a, items) ∈ entries ∧ ∀ x ∈ run, ∃ n, (n, x) ∈ items := by
  intro entries
  induction entries with
  | nil =>
    intro filter caches totalLen accPending accResult a run hmem
    simp only [listGo] at hmem
    exact Or.inl hmem
  | cons e rest ih =>
    intro filter caches totalLen accPending accResult a run hmem
    obtain ⟨addr, items⟩ := e
    have hnew : (a, run) ∈ accResult ++ [(addr, (flatten items filter baseFee).1)] →
        (a, run) ∈ accResult ∨
          ∃ its, (a, its) ∈ (addr, items) :: rest ∧ ∀ x ∈ run, ∃ n, (n, x) ∈ its := by
      intro hy
      rcases List.mem_append.mp hy with hy | hy
      · exact Or.inl hy
      · simp only [List.mem_singleton, Prod.mk.injEq] at hy
        refine Or.inr ⟨items, ?_, ?_⟩
        · rw [hy.1]; exact List.mem_cons_self _ _
        · intro x hx
          rw [hy.2] at hx
          rcases flattenGo_mem baseFee items false [] filter 0 x hx with hm | hm
          · exact absurd hm (List.not_mem_nil x)
          · exact hm
    rw [listGo] at hmem
    by_cases hc1 : (flatten items filter baseFee).1.length ≠ 0 ∧ limit ≤ accResult.length + 1
    · rw [if_pos hc1] at hmem
      exact hnew hmem
    · rw [if_neg hc1] at hmem
      have hstep : ∀ (flt : Filter) (cch : List (Hash × PoolTx)) (tl : Nat)
          (accP : List (Addr × SortedMapRep)),
          (a, run) ∈ (listGo limitedSize baseFee limit rest flt cch tl accP
            (if (flatten items filter baseFee).1.length ≠ 0 then
              accResult ++ [(addr, (flatten items filter baseFee).1)] else accResult)).1 →
          (a, run) ∈ accResult ∨
            ∃ its, (a, its) ∈ (addr, items) :: rest ∧ ∀ x ∈ run, ∃ n, (n, x) ∈ its := by
        intro flt cch tl accP hm
        rcases ih flt cch tl accP _ a run hm with hm1 | ⟨its, hits, hall⟩
        · by_cases hc : (flatten items filter baseFee).1.length ≠ 0
          · rw [if_pos hc] at hm1
            exact hnew hm1
          · rw [if_neg hc] at hm1
            exact Or.inl hm1
        · exact Or.inr ⟨its, List.mem_cons_of_mem _ hits, hall⟩
      by_cases hc2 : (flatten items filter baseFee).2.2 ≠ 0 ∧
          limitedSize < totalLen + items.length
      · rw [if_pos hc2] at hmem
        exact hstep _ _ _ _ hmem
      · rw [if_neg hc2] at hmem
        exact hstep _ _ _ _ hmem

/-- Claim C10: pushing a same-nonce replacement whose fee caps do not both
strictly exceed the incumbent's is rejected by the per-sender list, yet
`PricePool::push` still returns `Ok(hash)` and inserts the hash into the
cache map: afterwards `contains` is true and `len` counts the transaction,
while every pending list is unchanged, so `list` can never return it. -/
theorem claim_C10_push_rejected_replacement (p : PricePoolS) (tx : PoolTx)
    (items : SortedMapRep) (old : PoolTx)
    (hfresh : alGet p.caches tx.hash = none)
    (hlist : alGet p.pending tx.caller = some items)
    (holdn : alGet items tx.nonce = some old)
    (hreject : tx.maxFeePerGas ≤ old.maxFeePerGas ∨
      tx.maxPriorityFeePerGas ≤ old.maxPriorityFeePerGas)
    (hnottx : ∀ e ∈ p.pending, ∀ q ∈ e.2, q.2 ≠ tx) :
    PricePoolS.push p tx =
      .ok ({ p with
              caches := alSet p.caches tx.hash tx
              pending := alSet p.pending tx.caller items }, tx.hash)
    ∧ (∀ a, alGet (alSet p.pending tx.caller items) a = alGet p.pending a)
    ∧ PricePoolS.contains
        { p with
          caches := alSet p.caches tx.hash tx
          pending := alSet p.pending tx.caller items } tx.hash = true
    ∧ PricePoolS.size
        { p with
          caches := alSet p.caches tx.hash tx
          pending := alSet p.pending tx.caller items } = p.size + 1
    ∧ (∀ (filter : Filter) (baseFee : Option Nat) (limit : Nat) (a : Addr)
        (run : List PoolTx),
        (a, run) ∈ (PricePoolS.list
          { p with
            caches := alSet p.caches tx.hash tx
            pending := alSet p.pending tx.caller items } filter baseFee limit).1 →
        tx ∉ run) := by
  have hadd : UserTxList.add items tx 0 = (items, false) := by
    unfold UserTxList.add
    rw [holdn]
    exact if_pos hreject
  have hsetsame : ∀ a, alGet (alSet p.pending tx.caller items) a = alGet p.pending a := by
    intro a
    by_cases ha : a = tx.caller
    · subst ha
      rw [alGet_alSet_self, hlist]
    · rw [alGet_alSet_ne _ _ _ _ (fun hc => ha hc.symm)]
  refine ⟨?_, hsetsame, ?_, ?_, ?_⟩
  · simp only [PricePoolS.push]
    rw [hfresh, hlist]
    simp [hadd]
  · simp [PricePoolS.contains, alGet_alSet_self]
  · have hlen : ∀ (m : List (Hash × PoolTx)) (k : Hash) (v : PoolTx), alGet m k = none →
        (alSet m k v).length = m.length + 1 := by
      intro m k v
      induction m with
      | nil => intro _; simp [alSet]
      | cons q rest ihm =>
        obtain ⟨k1, v1⟩ := q
        intro hget
        by_cases hk : k1 = k
        · simp only [alGet, hk, if_pos] at hget
          exact absurd hget (by simp)
        · simp only [alGet, hk, if_neg, not_false_iff] at hget
          simp [alSet, hk, ihm hget]
    simp [PricePoolS.size, hlen p.caches tx.hash tx hfresh]
  · intro filter baseFee limit a run hmem htx
    rcases listGo_mem p.limitedSize baseFee limit (alSet p.pending tx.caller items)
      filter (alSet p.caches tx.hash tx) 0 [] [] a run hmem with hm | ⟨its, hits, hall⟩
    · exact absurd hm (List.not_mem_nil _)
    · obtain ⟨n, hn⟩ := hall tx htx
      rcases mem_alSet p.pending tx.caller items (a, its) hits with he | he
      · have hitseq : its = items := congrArg Prod.snd he
        subst hitseq
        have : (a, its) ∈ p.pending := by
          have := alGet_mem p.pending tx.caller its hlist
          have hae : a = tx.caller := congrArg Prod.fst he
          rw [hae]
          exact this
        exact hnottx (a, its) this (n, tx) hn rfl
      · exact hnottx (a, its) he (n, tx) hn rfl

/-- Concrete instance discharging the hypotheses of claim C10: replacing the
incumbent nonce-0 transaction by one with identical fee caps is rejected by
the list, yet push succeeds, the hash is cached, and the pool size grows. -/
theorem claim_C10_witness :
    PricePoolS.push wpricepool2 (wtx 302 0) =
      .ok ({ wpricepool2 with
             caches := alSet wpricepool2.caches (wtx 302 0).hash (wtx 302 0),
             pending := alSet wpricepool2.pending (wtx 302 0).caller [(0, wtx 301 0)] },
        (wtx 302 0).hash)
    ∧ PricePoolS.contains
        { wpricepool2 with
          caches := alSet wpricepool2.caches (wtx 302 0).hash (wtx 302 0),
          pending := alSet wpricepool2.pending (wtx 302 0).caller [(0, wtx 301 0)] }
        (wtx 302 0).hash = true
    ∧ PricePoolS.size
        { wpricepool2 with
          caches := alSet wpricepool2.caches (wtx 302 0).hash (wtx 302 0),
          pending := alSet wpricepool2.pending (wtx 302 0).caller [(0, wtx 301 0)] }
        = wpricepool2.size + 1 := by
  have h := claim_C10_push_rejected_replacement wpricepool2 (wtx 302 0)
    [(0, wtx 301 0)] (wtx 301 0) (by decide) (by decide) (by decide)
    (by decide) (by decide)
  exact ⟨h.1, h.2.2.1, h.2.2.2.1⟩

end TeeBuilder
